import Mathlib

/-!
# Verification of the zuv-lottery draw controller and persistence adapter

Shallow embedding of `src/App.tsx` (the current revision, before the appended
older revision in the same file) and `src/types.ts`.  JavaScript strings are
modelled as lists of Unicode scalar characters (`JStr`).  The static
configuration `PRIZES` and the constants `APP_STORAGE_KEY` /
`DEFAULT_CONGRATS_MESSAGE` come from `constants.ts`, which is not among the
sources; they are kept as parameters resp. modelled from the spec.
-/

namespace ZuvLottery

/-- A JavaScript string, modelled as its list of characters. -/
abbrev JStr := List Char

/-! ## Data model (`src/types.ts`) -/

structure Participant where
  id : JStr
  name : JStr
deriving DecidableEq, Repr

structure Prize where
  id : Int
  rank : Int
  name : JStr
  value : JStr
  icon : JStr
  isBigWinner : Bool
deriving DecidableEq, Repr

structure Winner where
  participant : Participant
  prize : Prize
  drawnAt : Int
  congratsMessage : Option JStr
deriving DecidableEq, Repr

inductive AppState where
  | SETUP
  | READY
  | DRAWING
  | FINISHED
deriving DecidableEq, Repr

/-- Modelled from the spec: `constants.ts` is not among the sources.  The spec
only requires that a Winner carries "an optional congratulatory message" and
that `drawWinner` always attaches the default one; its concrete text is
irrelevant to every claim. -/
def DEFAULT_CONGRATS_MESSAGE : JStr := "Welcome".toList

/-! ## Draw controller state (the React component's state hooks) -/

structure AppCore where
  participants : List Participant
  winners : List Winner
  appState : AppState
  showWinnerModal : Bool
  lastWinner : Option Winner
  currentDrawnName : Option JStr
deriving DecidableEq, Repr

/-- `winners.map(w => w.prize.id)` (App.tsx line 188). -/
def wonPrizeIds (winners : List Winner) : List Int :=
  winners.map fun w => w.prize.id

/-- One insertion step of the stable sort below: `p` is placed before the
first element it strictly precedes under the comparator. -/
def insertByIdDesc (p : Prize) : List Prize → List Prize
  | [] => [p]
  | q :: t => if q.id ≤ p.id then p :: q :: t else q :: insertByIdDesc p t

/-- `Array.prototype.sort` with the comparator `(a, b) => b.id - a.id`:
a stable sort by descending `id` (modern JS sorts are stable; modelled as a
structurally recursive insertion sort so that it evaluates by `decide`). -/
def sortByIdDesc : List Prize → List Prize
  | [] => []
  | p :: t => insertByIdDesc p (sortByIdDesc t)

/-- `PRIZES.filter(p => !wonPrizeIds.includes(p.id)).sort((a, b) => b.id - a.id)`
(App.tsx lines 187-190): unclaimed prizes, sorted by descending id. -/
def remainingPrizes (PRIZES : List Prize) (winners : List Winner) : List Prize :=
  sortByIdDesc (PRIZES.filter fun p => !(wonPrizeIds winners).contains p.id)

/-- `const nextPrize = remainingPrizes[0]` (App.tsx line 192);
`undefined` is modelled as `none`. -/
def nextPrize (PRIZES : List Prize) (winners : List Winner) : Option Prize :=
  (remainingPrizes PRIZES winners).head?

/-- `participants.filter(p => !winners.find(w => w.participant.id === p.id))`
(App.tsx lines 230-232). -/
def eligible (participants : List Participant) (winners : List Winner) :
    List Participant :=
  participants.filter fun p =>
    (winners.find? fun w => w.participant.id == p.id).isNone

/-- The denominator of the dyadic rationals returned by `Math.random()`:
the engines produce a uniform double of the form `k / 2^53` with
`0 ≤ k < 2^53`. -/
def randDenom : Nat := 2 ^ 53

/-- `Math.floor(Math.random() * len)` (App.tsx line 235), in exact
arithmetic: with `Math.random() = k / 2^53`, the floor of `(k / 2^53) * len`
is the integer division `k * len / 2^53`. -/
def selectedIndex (k len : Nat) : Nat := k * len / randDenom

/-- The participant/prize pair captured by the closure of the `setTimeout`
callback inside `drawWinner` (App.tsx lines 235-238). -/
structure PendingDraw where
  participant : Participant
  prize : Prize
deriving DecidableEq, Repr

/-- The synchronous part of `drawWinner` (App.tsx lines 226-241): guards, the
uniform pick among eligible participants, the transition to DRAWING.  Returns
the updated core together with the data captured for the delayed commit
(`none` when a guard made the call return early).  If the selected index were
out of bounds the JS code would carry `undefined` onward; that branch is
modelled as an early return and is proved unreachable (claim C10). -/
def drawWinner (PRIZES : List Prize) (c : AppCore) (k : Nat) :
    AppCore × Option PendingDraw :=
  match nextPrize PRIZES c.winners with
  | none => (c, none)
  | some np =>
    if c.participants.length = 0 then (c, none)
    else if c.appState = AppState.DRAWING then (c, none)
    else
      let elig := eligible c.participants c.winners
      if elig.length = 0 then (c, none)
      else
        match elig[selectedIndex k elig.length]? with
        | none => (c, none)
        | some wp =>
          ({ c with appState := AppState.DRAWING, currentDrawnName := some wp.name },
            some { participant := wp, prize := np })

/-- The Winner record built inside the `setTimeout` callback
(App.tsx lines 244-249); `now` models `Date.now()`. -/
def mkWinner (p : PendingDraw) (now : Int) : Winner :=
  { participant := p.participant
    prize := p.prize
    drawnAt := now
    congratsMessage := some DEFAULT_CONGRATS_MESSAGE }

/-- The body of the `setTimeout` callback of `drawWinner` (App.tsx lines
243-258): appends the new Winner, records it as last winner, opens the modal,
and returns the state to READY (the comment in the source notes that FINISHED
is only entered once the modal closes).  The returned Bool is the argument
passed to `triggerCelebration`, i.e. the celebration side-effect signal. -/
def drawCommit (p : PendingDraw) (now : Int) (c : AppCore) : AppCore × Bool :=
  let newWinner := mkWinner p now
  ({ c with winners := c.winners ++ [newWinner]
            lastWinner := some newWinner
            showWinnerModal := true
            appState := AppState.READY },
    p.prize.isBigWinner)

/-- The `onClose` handler of the winner modal (App.tsx lines 278-284):
closes the modal, clears the rolling name, and enters FINISHED once
`winners.length >= PRIZES.length`. -/
def winnerModalOnClose (PRIZES : List Prize) (c : AppCore) : AppCore :=
  let c1 := { c with showWinnerModal := false, currentDrawnName := none }
  if PRIZES.length ≤ c1.winners.length then
    { c1 with appState := AppState.FINISHED }
  else c1

/-- One complete invocation of `drawWinner` with its delayed commit run to
completion (the model is single-threaded: nothing can interleave between the
call and its timeout, re-entrant draws being rejected by the DRAWING guard).
Returns the final core and `some flag` exactly when a winner was committed and
`triggerCelebration flag` was signalled. -/
def drawWinnerRun (PRIZES : List Prize) (c : AppCore) (k : Nat) (now : Int) :
    AppCore × Option Bool :=
  match drawWinner PRIZES c k with
  | (c1, none) => (c1, none)
  | (c1, some p) =>
    let cf := drawCommit p now c1
    (cf.1, some cf.2)

/-- A sequence of complete `drawWinner` invocations, each fed by its own
random value and clock reading. -/
def drawRunSeq (PRIZES : List Prize) (c : AppCore) (inputs : List (Nat × Int)) :
    AppCore :=
  inputs.foldl (fun s i => (drawWinnerRun PRIZES s i.1 i.2).1) c

/-- The data-model invariant of §3 of the spec, as used inductively: no
participant and no prize is referenced by two Winners, and every Winner's
prize comes from the configuration.  (The length bound of the spec follows,
see `winnersInv_length_le`.) -/
def WinnersInv (PRIZES : List Prize) (ws : List Winner) : Prop :=
  (ws.map fun w => w.participant.id).Nodup ∧
    (ws.map fun w => w.prize.id).Nodup ∧
    ∀ w ∈ ws, w.prize ∈ PRIZES

instance (PRIZES : List Prize) (ws : List Winner) :
    Decidable (WinnersInv PRIZES ws) := by
  unfold WinnersInv
  infer_instance

/-! ## Concrete sample data (used by the witnesses and counterexamples) -/

def pA : Participant := { id := "p-0".toList, name := "Ana".toList }

def pB : Participant := { id := "p-1".toList, name := "Bo".toList }

def prize1 : Prize :=
  { id := 1, rank := 1, name := "TV".toList, value := "x".toList,
    icon := "t".toList, isBigWinner := false }

def prize2 : Prize :=
  { id := 2, rank := 2, name := "Car".toList, value := "y".toList,
    icon := "c".toList, isBigWinner := true }

def samplePrizes : List Prize := [prize1, prize2]

/-- The component's initial state (App.tsx lines 163-168): no winners, READY,
modal closed. -/
def initCore (parts : List Participant) : AppCore :=
  { participants := parts, winners := [], appState := AppState.READY,
    showWinnerModal := false, lastWinner := none, currentDrawnName := none }

/-! ## Persistence: decimal numbers -/

/-- The decimal digit characters. -/
def digitChar : Nat → Char
  | 0 => '0' | 1 => '1' | 2 => '2' | 3 => '3' | 4 => '4'
  | 5 => '5' | 6 => '6' | 7 => '7' | 8 => '8' | _ => '9'

def charDigit (c : Char) : Option Nat :=
  if c = '0' then some 0 else if c = '1' then some 1
  else if c = '2' then some 2 else if c = '3' then some 3
  else if c = '4' then some 4 else if c = '5' then some 5
  else if c = '6' then some 6 else if c = '7' then some 7
  else if c = '8' then some 8 else if c = '9' then some 9 else none

def isDigitChar (c : Char) : Bool := (charDigit c).isSome

def natDigits (n : Nat) : JStr :=
  if n < 10 then [digitChar n]
  else natDigits (n / 10) ++ [digitChar (n % 10)]
decreasing_by
  apply Nat.div_lt_self <;> omega

/-- `JSON.stringify` of a number.  Every number the app serializes is an
integer (`Date.now()`, prize ids and ranks), printed as plain decimal
digits. -/
def intToJStr (n : Int) : JStr :=
  if n < 0 then '-' :: natDigits (-n).toNat else natDigits n.toNat

def digitsVal (ds : List Nat) : Nat := ds.foldl (fun a d => 10 * a + d) 0

/-- Parse a decimal natural at the head of the string (maximal digit run). -/
def parseNatJ (s : JStr) : Option (Nat × JStr) :=
  let ds := s.takeWhile isDigitChar
  if ds = [] then none
  else some (digitsVal (ds.filterMap charDigit), s.dropWhile isDigitChar)

/-- Parse a JSON integer (optional minus sign then digits). -/
def parseIntJ (s : JStr) : Option (Int × JStr) :=
  match s with
  | [] => none
  | c :: rest =>
    if c = '-' then (parseNatJ rest).map fun nr => (-(nr.1 : Int), nr.2)
    else (parseNatJ (c :: rest)).map fun nr => ((nr.1 : Int), nr.2)

/-! ## Persistence: JSON string literals -/

/-- Lowercase hexadecimal digits (used by `JSON.stringify` in `\u00xx`
escapes of control characters). -/
def hexDigitChar : Nat → Char
  | 0 => '0' | 1 => '1' | 2 => '2' | 3 => '3' | 4 => '4'
  | 5 => '5' | 6 => '6' | 7 => '7' | 8 => '8' | 9 => '9'
  | 10 => 'a' | 11 => 'b' | 12 => 'c' | 13 => 'd' | 14 => 'e' | _ => 'f'

/-- Uppercase hexadecimal digits (used by `encodeURIComponent`). -/
def hexDigitCharUpper : Nat → Char
  | 0 => '0' | 1 => '1' | 2 => '2' | 3 => '3' | 4 => '4'
  | 5 => '5' | 6 => '6' | 7 => '7' | 8 => '8' | 9 => '9'
  | 10 => 'A' | 11 => 'B' | 12 => 'C' | 13 => 'D' | 14 => 'E' | _ => 'F'

def charHexVal (c : Char) : Option Nat :=
  if c = '0' then some 0 else if c = '1' then some 1
  else if c = '2' then some 2 else if c = '3' then some 3
  else if c = '4' then some 4 else if c = '5' then some 5
  else if c = '6' then some 6 else if c = '7' then some 7
  else if c = '8' then some 8 else if c = '9' then some 9
  else if c = 'a' ∨ c = 'A' then some 10 else if c = 'b' ∨ c = 'B' then some 11
  else if c = 'c' ∨ c = 'C' then some 12 else if c = 'd' ∨ c = 'D' then some 13
  else if c = 'e' ∨ c = 'E' then some 14 else if c = 'f' ∨ c = 'F' then some 15
  else none

/-- `JSON.stringify` escaping of one string character: quote and backslash
get a two-character escape, the named control characters get theirs, the
remaining control characters become `\u00xx`, everything else (all other
Unicode) is emitted literally. -/
def quoteChar (c : Char) : JStr :=
  if c = '"' then ['\\', '"']
  else if c = '\\' then ['\\', '\\']
  else if c = Char.ofNat 8 then ['\\', 'b']
  else if c = Char.ofNat 9 then ['\\', 't']
  else if c = Char.ofNat 10 then ['\\', 'n']
  else if c = Char.ofNat 12 then ['\\', 'f']
  else if c = Char.ofNat 13 then ['\\', 'r']
  else if c.toNat < 32 then
    ['\\', 'u', '0', '0', hexDigitChar (c.toNat / 16), hexDigitChar (c.toNat % 16)]
  else [c]

/-- `JSON.stringify` of a string value. -/
def quoteJStr (s : JStr) : JStr := '"' :: (s.flatMap quoteChar ++ ['"'])

def unescapeChar (e : Char) : Option Char :=
  if e = '"' then some '"'
  else if e = '\\' then some '\\'
  else if e = '/' then some '/'
  else if e = 'b' then some (Char.ofNat 8)
  else if e = 'f' then some (Char.ofNat 12)
  else if e = 'n' then some (Char.ofNat 10)
  else if e = 'r' then some (Char.ofNat 13)
  else if e = 't' then some (Char.ofNat 9)
  else none

/-- Body of a JSON string literal after the opening quote: returns the
decoded content and the remainder after the closing quote. -/
def parseStringBody : JStr → Option (JStr × JStr)
  | [] => none
  | c :: rest =>
    if c = '"' then some ([], rest)
    else if c = '\\' then
      match rest with
      | [] => none
      | e :: rest2 =>
        if e = 'u' then
          match rest2 with
          | h1 :: h2 :: h3 :: h4 :: rest3 =>
            match charHexVal h1, charHexVal h2, charHexVal h3, charHexVal h4 with
            | some a, some b, some cv, some d =>
              (parseStringBody rest3).map fun sr =>
                (Char.ofNat (((a * 16 + b) * 16 + cv) * 16 + d) :: sr.1, sr.2)
            | _, _, _, _ => none
          | _ => none
        else
          match unescapeChar e with
          | none => none
          | some u => (parseStringBody rest2).map fun sr => (u :: sr.1, sr.2)
    else (parseStringBody rest).map fun sr => (c :: sr.1, sr.2)

/-- Parse a JSON string literal (opening quote, body, closing quote). -/
def parseJsonString (s : JStr) : Option (JStr × JStr) :=
  match s with
  | [] => none
  | c :: rest => if c = '"' then parseStringBody rest else none

/-! ## Persistence: encodeURIComponent / decodeURIComponent -/

/-- The UTF-8 bytes of one Unicode scalar. -/
def utf8Bytes (c : Char) : List Nat :=
  let v := c.toNat
  if v < 128 then [v]
  else if v < 2048 then [192 + v / 64, 128 + v % 64]
  else if v < 65536 then [224 + v / 4096, 128 + v / 64 % 64, 128 + v % 64]
  else [240 + v / 262144, 128 + v / 4096 % 64, 128 + v / 64 % 64, 128 + v % 64]

/-- The characters `encodeURIComponent` leaves unescaped:
`A-Z a-z 0-9 - _ . ! ~ * ' ( )`. -/
def uriUnreserved (c : Char) : Bool :=
  c.isAlpha || c.isDigit || c = '-' || c = '_' || c = '.' || c = '!' ||
    c = '~' || c = '*' || c = Char.ofNat 39 || c = '(' || c = ')'

def percentEncodeChar (c : Char) : JStr :=
  (utf8Bytes c).flatMap fun b =>
    ['%', hexDigitCharUpper (b / 16), hexDigitCharUpper (b % 16)]

/-- `encodeURIComponent` (browser builtin): unreserved characters unchanged,
every other character percent-encoded as its UTF-8 bytes. -/
def encodeURIComponent (s : JStr) : JStr :=
  s.flatMap fun c => if uriUnreserved c then [c] else percentEncodeChar c

/-- Tokenize a percent-encoded string: `%XX` becomes a byte, anything else a
literal character.  (`decodeURIComponent` raises `URIError` on a malformed
`%` sequence; that case is modelled by keeping the raw `%`, and is
unreachable for the values the app stores.) -/
def uriTokens : JStr → List (Sum Nat Char)
  | [] => []
  | c :: rest =>
    if c = '%' then
      match rest with
      | h :: l :: rest2 =>
        match charHexVal h, charHexVal l with
        | some a, some b => Sum.inl (a * 16 + b) :: uriTokens rest2
        | _, _ => Sum.inr c :: uriTokens (h :: l :: rest2)
      | r1 => Sum.inr c :: uriTokens r1
    else Sum.inr c :: uriTokens rest

/-- Decode a UTF-8 byte run back to characters, the lead byte selecting the
sequence length.  (A truncated or stray run — on which `decodeURIComponent`
would raise `URIError` — decodes to junk instead; unreachable for the values
the app stores.) -/
def utf8Decode : List Nat → JStr
  | [] => []
  | b :: rest =>
    if b < 128 then Char.ofNat b :: utf8Decode rest
    else if b < 224 then
      Char.ofNat ((b - 192) * 64 + (rest.headD 0 - 128)) ::
        utf8Decode (rest.drop 1)
    else if b < 240 then
      Char.ofNat (((b - 224) * 64 + (rest.headD 0 - 128)) * 64 +
        ((rest.drop 1).headD 0 - 128)) :: utf8Decode (rest.drop 2)
    else
      Char.ofNat ((((b - 240) * 64 + (rest.headD 0 - 128)) * 64 +
        ((rest.drop 1).headD 0 - 128)) * 64 + ((rest.drop 2).headD 0 - 128)) ::
        utf8Decode (rest.drop 3)
termination_by s => s.length
decreasing_by
  · simp
  · simp [List.length_drop]
    omega
  · simp [List.length_drop]
    omega
  · simp [List.length_drop]
    omega

/-- Collect byte tokens into UTF-8 runs and decode; literal characters pass
through. -/
def decodeTokensAux (acc : List Nat) : List (Sum Nat Char) → JStr
  | [] => utf8Decode acc.reverse
  | Sum.inl b :: rest => decodeTokensAux (b :: acc) rest
  | Sum.inr c :: rest => utf8Decode acc.reverse ++ c :: decodeTokensAux [] rest

/-- `decodeURIComponent` (browser builtin). -/
def decodeURIComponent (s : JStr) : JStr := decodeTokensAux [] (uriTokens s)

/-! ## Persistence: the serialized winner record -/

def lbrace : Char := Char.ofNat 123

def rbrace : Char := Char.ofNat 125

def stringifyBool (b : Bool) : JStr :=
  if b then "true".toList else "false".toList

/-- `JSON.stringify` of a Participant, key order as the objects are created
(`{ id, name }`, App.tsx line 160). -/
def stringifyParticipant (p : Participant) : JStr :=
  lbrace :: (quoteJStr "id".toList ++ ':' :: quoteJStr p.id ++
    ',' :: quoteJStr "name".toList ++ ':' :: quoteJStr p.name ++ [rbrace])

/-- `JSON.stringify` of a Prize.  Key order follows the `Prize` interface of
`types.ts` (the object literals live in `constants.ts`, which is not among
the sources; only the round-trip self-consistency matters). -/
def stringifyPrize (z : Prize) : JStr :=
  lbrace :: (quoteJStr "id".toList ++ ':' :: intToJStr z.id ++
    ',' :: quoteJStr "rank".toList ++ ':' :: intToJStr z.rank ++
    ',' :: quoteJStr "name".toList ++ ':' :: quoteJStr z.name ++
    ',' :: quoteJStr "value".toList ++ ':' :: quoteJStr z.value ++
    ',' :: quoteJStr "icon".toList ++ ':' :: quoteJStr z.icon ++
    ',' :: quoteJStr "isBigWinner".toList ++ ':' ::
      stringifyBool z.isBigWinner ++ [rbrace])

/-- `JSON.stringify` of a Winner (key order of the literal at App.tsx lines
244-249). A `none` message models an absent (`undefined`) property, which
`JSON.stringify` omits. -/
def stringifyWinner (w : Winner) : JStr :=
  lbrace :: (quoteJStr "participant".toList ++ ':' ::
      stringifyParticipant w.participant ++
    ',' :: quoteJStr "prize".toList ++ ':' :: stringifyPrize w.prize ++
    ',' :: quoteJStr "drawnAt".toList ++ ':' :: intToJStr w.drawnAt ++
    (match w.congratsMessage with
      | some m =>
        ',' :: quoteJStr "congratsMessage".toList ++ ':' :: quoteJStr m ++
          [rbrace]
      | none => [rbrace]))

def stringifyWinnersTail : List Winner → JStr
  | [] => [']']
  | w :: t => ',' :: (stringifyWinner w ++ stringifyWinnersTail t)

def stringifyWinnersArr : List Winner → JStr
  | [] => ['[', ']']
  | w :: t => '[' :: (stringifyWinner w ++ stringifyWinnersTail t)

/-- `JSON.stringify({ winners })` (App.tsx line 184). -/
def stringifyRecord (ws : List Winner) : JStr :=
  lbrace :: (quoteJStr "winners".toList ++ ':' ::
    stringifyWinnersArr ws ++ [rbrace])

/-! ## Persistence: parsing the record (JSON.parse specialized) -/

/-- Expect a literal prefix, returning the remainder. -/
def expects (lit s : JStr) : Option JStr :=
  if lit.isPrefixOf s then some (s.drop lit.length) else none

def parseBoolJ (s : JStr) : Option (Bool × JStr) :=
  match expects "true".toList s with
  | some r => some (true, r)
  | none =>
    match expects "false".toList s with
    | some r => some (false, r)
    | none => none

def parseParticipant (s : JStr) : Option (Participant × JStr) := do
  let s1 ← expects ([lbrace] ++ quoteJStr "id".toList ++ [':']) s
  let (pid, s2) ← parseJsonString s1
  let s3 ← expects ([','] ++ quoteJStr "name".toList ++ [':']) s2
  let (pname, s4) ← parseJsonString s3
  let s5 ← expects [rbrace] s4
  pure ({ id := pid, name := pname }, s5)

def parsePrize (s : JStr) : Option (Prize × JStr) := do
  let s1 ← expects ([lbrace] ++ quoteJStr "id".toList ++ [':']) s
  let (zid, s2) ← parseIntJ s1
  let s3 ← expects ([','] ++ quoteJStr "rank".toList ++ [':']) s2
  let (zrank, s4) ← parseIntJ s3
  let s5 ← expects ([','] ++ quoteJStr "name".toList ++ [':']) s4
  let (zname, s6) ← parseJsonString s5
  let s7 ← expects ([','] ++ quoteJStr "value".toList ++ [':']) s6
  let (zvalue, s8) ← parseJsonString s7
  let s9 ← expects ([','] ++ quoteJStr "icon".toList ++ [':']) s8
  let (zicon, s10) ← parseJsonString s9
  let s11 ← expects ([','] ++ quoteJStr "isBigWinner".toList ++ [':']) s10
  let (zbig, s12) ← parseBoolJ s11
  let s13 ← expects [rbrace] s12
  pure ({ id := zid, rank := zrank, name := zname, value := zvalue,
          icon := zicon, isBigWinner := zbig }, s13)

def parseWinner (s : JStr) : Option (Winner × JStr) := do
  let s1 ← expects ([lbrace] ++ quoteJStr "participant".toList ++ [':']) s
  let (part, s2) ← parseParticipant s1
  let s3 ← expects ([','] ++ quoteJStr "prize".toList ++ [':']) s2
  let (z, s4) ← parsePrize s3
  let s5 ← expects ([','] ++ quoteJStr "drawnAt".toList ++ [':']) s4
  let (da, s6) ← parseIntJ s5
  match expects ([','] ++ quoteJStr "congratsMessage".toList ++ [':']) s6 with
  | some s7 => do
    let (m, s8) ← parseJsonString s7
    let s9 ← expects [rbrace] s8
    pure ({ participant := part, prize := z, drawnAt := da,
            congratsMessage := some m }, s9)
  | none => do
    let s7 ← expects [rbrace] s6
    pure ({ participant := part, prize := z, drawnAt := da,
            congratsMessage := none }, s7)

def parseWinnersTail (fuel : Nat) (s : JStr) : Option (List Winner × JStr) :=
  match fuel with
  | 0 => none
  | fuel + 1 =>
    match s with
    | [] => none
    | c :: rest =>
      if c = ']' then some ([], rest)
      else if c = ',' then do
        let (w, s1) ← parseWinner rest
        let (t, s2) ← parseWinnersTail fuel s1
        pure (w :: t, s2)
      else none

def parseWinnersArr (fuel : Nat) (s : JStr) : Option (List Winner × JStr) :=
  match s with
  | [] => none
  | c :: rest =>
    if c = '[' then
      match rest with
      | [] => none
      | r1 :: rest2 =>
        if r1 = ']' then some ([], rest2)
        else do
          let (w, s1) ← parseWinner (r1 :: rest2)
          let (t, s2) ← parseWinnersTail fuel s1
          pure (w :: t, s2)
    else none

/-- `JSON.parse(saved)` followed by the `parsed.winners || []` extraction
(App.tsx lines 174-176), specialized to the persisted record grammar
`{"winners":[...]}`: `none` models the parse throwing (caught by the
`catch`).  A string that is valid JSON of a different shape is also mapped
to `none`; on such inputs the JS code would seed the same empty winner list
the initial state already has, so no claim distinguishes the two. -/
def parseRecord (s : JStr) : Option (List Winner) := do
  let s1 ← expects ([lbrace] ++ quoteJStr "winners".toList ++ [':']) s
  let (ws, s2) ← parseWinnersArr (s.length + 1) s1
  let s3 ← expects [rbrace] s2
  if s3 = [] then pure ws else none

/-! ## Persistence: the cookie jar -/

/-- Modelled from the spec: the fixed storage key (`APP_STORAGE_KEY` lives in
`constants.ts`, which is not among the sources; the spec only requires "a
single record keyed by a fixed storage key"). -/
def APP_STORAGE_KEY : JStr := "zuv-lottery-state".toList

/-- The browser cookie jar: the name/value pairs currently stored (values as
stored, i.e. percent-encoded).  `document.cookie` is an accessor over this
jar, not a plain mutable string. -/
abbrev CookieJar := List (JStr × JStr)

def jarErase (jar : CookieJar) (name : JStr) : CookieJar :=
  jar.filter fun kv => !(kv.1 == name)

/-- The `setCookie` helper (App.tsx lines 12-17) as seen by the jar: the
assignment to `document.cookie` stores `name=encodeURIComponent(value)`
under `name`; a past expiration date (`days < 0`, used by reset) deletes the
cookie instead. -/
def setCookie (jar : CookieJar) (name value : JStr) (days : Int) : CookieJar :=
  if days < 0 then jarErase jar name
  else jarErase jar name ++ [(name, encodeURIComponent value)]

/-- The string the `document.cookie` getter returns: the unexpired cookies
as `name=value`, joined by `"; "`. -/
def documentCookie (jar : CookieJar) : JStr :=
  List.intercalate ("; ".toList) (jar.map fun kv => kv.1 ++ '=' :: kv.2)

/-- Prepend a character to the first piece of a split result. -/
def consHead (c : Char) : List JStr → List JStr
  | [] => [[c]]
  | h :: t => (c :: h) :: t

/-- `String.prototype.split` with a non-empty string separator.  (The code
only splits on `"; "` and `"="`.) -/
def jsSplit (sep : JStr) (s : JStr) : List JStr :=
  if hsep : sep = [] then [s]
  else
    match s with
    | [] => [[]]
    | c :: rest =>
      if sep.isPrefixOf (c :: rest) then
        [] :: jsSplit sep ((c :: rest).drop sep.length)
      else consHead c (jsSplit sep rest)
termination_by s.length
decreasing_by
  · simp only [List.length_drop, List.length_cons]
    have := List.length_pos.mpr hsep
    omega
  · simp

/-- The `getCookie` helper (App.tsx lines 19-24): split `document.cookie` on
`"; "`, split each part on `"="`, reduce keeping the last part whose name
matches, and decode.  (As in JS, a matching part with no `"="` would yield
the string `"undefined"` — unreachable, since jar entries always contain
`=`.) -/
def getCookie (jar : CookieJar) (name : JStr) : JStr :=
  (jsSplit ("; ".toList) (documentCookie jar)).foldl
    (fun r v =>
      let parts := jsSplit ['='] v
      if parts.head? = some name then
        decodeURIComponent (parts.getD 1 "undefined".toList)
      else r)
    []

/-! ## The system: component state plus cookie jar -/

structure Sys where
  core : AppCore
  jar : CookieJar
deriving DecidableEq, Repr

/-- The save effect (App.tsx lines 183-185) as seen by the jar: after every
change of `winners`, store the serialized record — but only when the list is
non-empty. -/
def saveWinners (jar : CookieJar) (ws : List Winner) : CookieJar :=
  if ws.length > 0 then
    setCookie jar APP_STORAGE_KEY (stringifyRecord ws) 7
  else jar

/-- The save effect applied to the whole system state. -/
def saveEffect (s : Sys) : Sys :=
  { s with jar := saveWinners s.jar s.core.winners }

/-- The startup load effect (App.tsx lines 170-181): read the cookie; if it
is non-empty, parse it; on success seed `winners` (and FINISHED when the
loaded history already covers all prizes); a parse failure is caught and
only logged. -/
def loadEffect (PRIZES : List Prize) (jar : CookieJar) (c : AppCore) :
    AppCore :=
  let saved := getCookie jar APP_STORAGE_KEY
  if saved = [] then c
  else
    match parseRecord saved with
    | none => c
    | some ws =>
      { c with winners := ws
               appState := if PRIZES.length ≤ ws.length then
                  AppState.FINISHED else c.appState }

/-- The winner list a fresh mount ends up with after the load effect: empty
when the cookie is missing or does not parse, the stored list otherwise
(`loadEffect` restricted to the `winners` field at an initial state). -/
def loadWinners (jar : CookieJar) : List Winner :=
  let saved := getCookie jar APP_STORAGE_KEY
  if saved = [] then []
  else
    match parseRecord saved with
    | none => []
    | some ws => ws

/-- `handleReset` (App.tsx lines 261-267): on operator confirmation, clear
the winners, return to READY, and delete the cookie (`setCookie` with
expiration -1). -/
def handleReset (confirmed : Bool) (s : Sys) : Sys :=
  if confirmed then
    { core := { s.core with winners := [], appState := AppState.READY },
      jar := setCookie s.jar APP_STORAGE_KEY [] (-1) }
  else s

/-- A confirmed reset followed by the save effect that reacts to the winners
change (a no-op there, the cleared list being empty). -/
def resetSys (confirmed : Bool) (s : Sys) : Sys :=
  saveEffect (handleReset confirmed s)

/-- A complete draw at the system level: the component invocation with its
delayed commit, followed by the save effect reacting to the appended
winner. -/
def drawSys (PRIZES : List Prize) (s : Sys) (k : Nat) (now : Int) :
    Sys × Option Bool :=
  match drawWinnerRun PRIZES s.core k now with
  | (c, none) => ({ s with core := c }, none)
  | (c, some flag) => (saveEffect { s with core := c }, some flag)

/-- A fresh page load against the current jar: the component mounts in its
initial state, the load effect seeds it from the cookie, and the save effect
reacts to the seeded winners. -/
def reloadSys (PRIZES : List Prize) (parts : List Participant) (s : Sys) :
    Sys :=
  saveEffect { core := loadEffect PRIZES s.jar (initCore parts), jar := s.jar }

/-- One user-observable operation of the application. -/
inductive Step (PRIZES : List Prize) : Sys → Sys → Prop
  | draw (s : Sys) (k : Nat) (now : Int) :
      Step PRIZES s (drawSys PRIZES s k now).1
  | close (s : Sys) :
      Step PRIZES s { s with core := winnerModalOnClose PRIZES s.core }
  | reset (s : Sys) (confirmed : Bool) : Step PRIZES s (resetSys confirmed s)
  | reload (s : Sys) : Step PRIZES s (reloadSys PRIZES s.core.participants s)

/-- Reachability from a fresh browser (empty jar, initial component state). -/
def Reach (PRIZES : List Prize) (parts : List Participant) (s : Sys) : Prop :=
  Relation.ReflTransGen (Step PRIZES) { core := initCore parts, jar := [] } s

/-- The jar of a reachable state: either empty or exactly the app's record
cookie, storing a non-empty winner list that satisfies the data-model
invariant. -/
def JarInv (PRIZES : List Prize) (jar : CookieJar) : Prop :=
  jar = [] ∨ ∃ ws, WinnersInv PRIZES ws ∧ ws ≠ [] ∧
    jar = [(APP_STORAGE_KEY, encodeURIComponent (stringifyRecord ws))]

/-- The inductive system invariant. -/
def SysInv (PRIZES : List Prize) (s : Sys) : Prop :=
  WinnersInv PRIZES s.core.winners ∧ JarInv PRIZES s.jar

/-- A sample committed winner, used by witnesses and counterexamples. -/
def sampleWinner : Winner :=
  { participant := pA, prize := prize1, drawnAt := 3,
    congratsMessage := some DEFAULT_CONGRATS_MESSAGE }

/-- A jar already holding a persisted one-winner history. -/
def jarWithOneWinner : CookieJar :=
  [(APP_STORAGE_KEY, encodeURIComponent (stringifyRecord [sampleWinner]))]

/-- A jar holding a malformed record (not valid persisted JSON). -/
def jarBad : CookieJar :=
  [(APP_STORAGE_KEY, encodeURIComponent [lbrace])]

/-- A fresh system state with two participants and an empty jar. -/
def sampleSys0 : Sys := { core := initCore [pA, pB], jar := [] }

/-- A system state whose jar already holds a one-winner history. -/
def sampleSys1 : Sys := { core := initCore [pA], jar := jarWithOneWinner }

/-! ## Basic lemmas about the draw controller -/

/-- Membership in `wonPrizeIds`, unfolded. -/
theorem contains_wonPrizeIds_eq_false_iff {ws : List Winner} {i : Int} :
    (wonPrizeIds ws).contains i = false ↔ ∀ w ∈ ws, w.prize.id ≠ i := by
  simp [wonPrizeIds]

/-- A participant is in `eligible` iff it is a participant that no existing
Winner references. -/
theorem mem_eligible {parts : List Participant} {ws : List Winner}
    {p : Participant} :
    p ∈ eligible parts ws ↔ p ∈ parts ∧ ∀ w ∈ ws, w.participant.id ≠ p.id := by
  simp [eligible, List.mem_filter, Option.isNone_iff_eq_none, List.find?_eq_none]

/-- Inserting preserves membership. -/
theorem mem_insertByIdDesc {p x : Prize} {l : List Prize} :
    x ∈ insertByIdDesc p l ↔ x = p ∨ x ∈ l := by
  induction l with
  | nil => simp [insertByIdDesc]
  | cons q t ih =>
    unfold insertByIdDesc
    split
    · simp
    · simp only [List.mem_cons, ih]
      tauto

/-- The sort preserves membership. -/
theorem mem_sortByIdDesc {x : Prize} {l : List Prize} :
    x ∈ sortByIdDesc l ↔ x ∈ l := by
  induction l with
  | nil => simp [sortByIdDesc]
  | cons p t ih => simp [sortByIdDesc, mem_insertByIdDesc, ih]

/-- Inserting into a descending list keeps it descending. -/
theorem pairwise_insertByIdDesc {p : Prize} {l : List Prize}
    (h : l.Pairwise fun a b => b.id ≤ a.id) :
    (insertByIdDesc p l).Pairwise fun a b => b.id ≤ a.id := by
  induction l with
  | nil => simp [insertByIdDesc]
  | cons q t ih =>
    rcases List.pairwise_cons.mp h with ⟨hq, ht⟩
    unfold insertByIdDesc
    split
    next hle =>
      refine List.pairwise_cons.mpr ⟨?_, h⟩
      intro b hb
      rcases List.mem_cons.mp hb with rfl | hbt
      · exact hle
      · exact le_trans (hq b hbt) hle
    next hgt =>
      refine List.pairwise_cons.mpr ⟨?_, ih ht⟩
      intro b hb
      rcases mem_insertByIdDesc.mp hb with rfl | hbt
      · omega
      · exact hq b hbt

/-- The sort output is descending by id. -/
theorem pairwise_sortByIdDesc (l : List Prize) :
    (sortByIdDesc l).Pairwise fun a b => b.id ≤ a.id := by
  induction l with
  | nil => simp [sortByIdDesc]
  | cons p t ih => exact pairwise_insertByIdDesc ih

/-- `nextPrize` is an unclaimed configured prize of maximal id among the
unclaimed ones. -/
theorem nextPrize_spec {PRIZES : List Prize} {ws : List Winner} {np : Prize}
    (h : nextPrize PRIZES ws = some np) :
    np ∈ PRIZES ∧ (∀ w ∈ ws, w.prize.id ≠ np.id) ∧
      ∀ q ∈ PRIZES, (∀ w ∈ ws, w.prize.id ≠ q.id) → q.id ≤ np.id := by
  unfold nextPrize remainingPrizes at h
  generalize hL : sortByIdDesc
      (PRIZES.filter fun p => !(wonPrizeIds ws).contains p.id) = L at h
  cases L with
  | nil => simp at h
  | cons x t =>
    have hx : x = np := by simpa using h
    rw [hx] at hL
    have hmem : ∀ q : Prize, q ∈ np :: t ↔
        q ∈ PRIZES ∧ (wonPrizeIds ws).contains q.id = false := by
      intro q
      rw [← hL, mem_sortByIdDesc, List.mem_filter]
      simp
    have hnp := (hmem np).mp (List.mem_cons_self np t)
    have hsorted : (np :: t).Pairwise (fun a b => b.id ≤ a.id) := by
      rw [← hL]
      exact pairwise_sortByIdDesc _
    refine ⟨hnp.1, contains_wonPrizeIds_eq_false_iff.mp hnp.2, ?_⟩
    intro q hq hqfree
    have hqmem : q ∈ np :: t :=
      (hmem q).mpr ⟨hq, contains_wonPrizeIds_eq_false_iff.mpr hqfree⟩
    rcases List.mem_cons.mp hqmem with rfl | hqt
    · exact le_refl _
    · exact (List.pairwise_cons.mp hsorted).1 q hqt

/-- Characterisation of a successful synchronous `drawWinner` call: the guards
passed, the captured prize is `nextPrize`, the captured participant is
eligible, and the core transitioned to DRAWING. -/
theorem drawWinner_eq_some {PRIZES : List Prize} {c : AppCore} {k : Nat}
    {c1 : AppCore} {p : PendingDraw}
    (h : drawWinner PRIZES c k = (c1, some p)) :
    nextPrize PRIZES c.winners = some p.prize ∧
      p.participant ∈ eligible c.participants c.winners ∧
      c1 = { c with appState := AppState.DRAWING,
                    currentDrawnName := some p.participant.name } := by
  unfold drawWinner at h
  split at h
  · simp at h
  next np hn =>
    split at h
    · simp at h
    · split at h
      · simp at h
      · dsimp only at h
        split at h
        · simp at h
        · split at h
          · simp at h
          next wp hg =>
            simp only [Prod.mk.injEq, Option.some.injEq] at h
            obtain ⟨hc1, hp⟩ := h
            refine ⟨?_, ?_, ?_⟩
            · rw [← hp]; exact hn
            · rw [← hp]; exact List.getElem?_mem hg
            · rw [← hp]; exact hc1.symm

/-- A no-op guard exit of `drawWinner` leaves the core unchanged and captures
nothing. -/
theorem drawWinner_eq_none_of_guard {PRIZES : List Prize} {c : AppCore} {k : Nat}
    (h : nextPrize PRIZES c.winners = none ∨
      eligible c.participants c.winners = [] ∨
      c.appState = AppState.DRAWING) :
    drawWinner PRIZES c k = (c, none) := by
  unfold drawWinner
  cases hn : nextPrize PRIZES c.winners with
  | none => rfl
  | some np =>
    rcases h with h | h | h
    · rw [h] at hn; exact Option.noConfusion hn
    · by_cases h0 : c.participants.length = 0
      · simp [h0]
      · by_cases h1 : c.appState = AppState.DRAWING
        · simp [h0, h1]
        · simp [h0, h1, h]
    · by_cases h0 : c.participants.length = 0
      · simp [h0]
      · simp [h0, h]

/-- A failed guard makes the whole invocation (including the never-scheduled
commit) a no-op. -/
theorem drawWinnerRun_noop {PRIZES : List Prize} {c : AppCore} {k : Nat}
    {now : Int}
    (h : nextPrize PRIZES c.winners = none ∨
      eligible c.participants c.winners = [] ∨
      c.appState = AppState.DRAWING) :
    drawWinnerRun PRIZES c k now = (c, none) := by
  simp only [drawWinnerRun, drawWinner_eq_none_of_guard h]

/-- With no participants, every complete `drawWinner` invocation is a no-op. -/
theorem drawRunSeq_participants_empty (PRIZES : List Prize) (c : AppCore)
    (inputs : List (Nat × Int)) (hp : c.participants = []) :
    drawRunSeq PRIZES c inputs = c := by
  induction inputs with
  | nil => rfl
  | cons i rest ih =>
    have h1 : (drawWinnerRun PRIZES c i.1 i.2).1 = c := by
      rw [drawWinnerRun_noop (Or.inr (Or.inl (by simp [eligible, hp])))]
    unfold drawRunSeq at ih ⊢
    rw [List.foldl_cons, h1]
    exact ih

/-- The selected random index is in bounds whenever the list drawn from is
non-empty and the random value lies in `[0, 1)`. -/
theorem selectedIndex_lt {k : Nat} (hk : k < randDenom) {len : Nat}
    (hlen : 0 < len) : selectedIndex k len < len := by
  unfold selectedIndex
  have hpos : 0 < randDenom := by unfold randDenom; positivity
  rw [Nat.div_lt_iff_lt_mul hpos]
  calc k * len < randDenom * len := Nat.mul_lt_mul_of_lt_of_le hk (le_refl len) hlen
    _ = len * randDenom := Nat.mul_comm _ _

/-! ## Claim theorems about the draw controller -/

/-- C1: for every completed draw (a `drawWinner` call whose guards pass,
followed by the delayed commit), the appended Winner's participant was
eligible at draw time (a participant, referenced by no existing Winner) and
the appended Winner's prize is the prize with the highest remaining id among
the configured prizes not referenced by any existing Winner. -/
theorem draw_appends_eligible_participant_and_highest_prize
    (PRIZES : List Prize) (c : AppCore) (k : Nat) (now : Int)
    (c1 : AppCore) (p : PendingDraw)
    (h : drawWinner PRIZES c k = (c1, some p)) :
    (drawCommit p now c1).1.winners = c.winners ++ [mkWinner p now] ∧
      (mkWinner p now).participant ∈ c.participants ∧
      (∀ w ∈ c.winners, w.participant.id ≠ (mkWinner p now).participant.id) ∧
      (mkWinner p now).prize ∈ PRIZES ∧
      (∀ w ∈ c.winners, w.prize.id ≠ (mkWinner p now).prize.id) ∧
      ∀ q ∈ PRIZES, (∀ w ∈ c.winners, w.prize.id ≠ q.id) →
        q.id ≤ (mkWinner p now).prize.id := by
  obtain ⟨hn, hel, hc1⟩ := drawWinner_eq_some h
  obtain ⟨hmem, hfree, hmax⟩ := nextPrize_spec hn
  obtain ⟨hpp, hpw⟩ := mem_eligible.mp hel
  subst hc1
  exact ⟨rfl, hpp, hpw, hmem, hfree, hmax⟩

theorem draw_appends_eligible_participant_and_highest_prize_witness :
    (drawCommit { participant := pA, prize := prize2 } 5
        { initCore [pA, pB] with appState := AppState.DRAWING,
                                 currentDrawnName := some pA.name }).1.winners =
      (initCore [pA, pB]).winners ++
        [mkWinner { participant := pA, prize := prize2 } 5] ∧
      (mkWinner { participant := pA, prize := prize2 } 5).participant ∈
        (initCore [pA, pB]).participants ∧
      (∀ w ∈ (initCore [pA, pB]).winners, w.participant.id ≠
        (mkWinner { participant := pA, prize := prize2 } 5).participant.id) ∧
      (mkWinner { participant := pA, prize := prize2 } 5).prize ∈ samplePrizes ∧
      (∀ w ∈ (initCore [pA, pB]).winners, w.prize.id ≠
        (mkWinner { participant := pA, prize := prize2 } 5).prize.id) ∧
      ∀ q ∈ samplePrizes,
        (∀ w ∈ (initCore [pA, pB]).winners, w.prize.id ≠ q.id) →
          q.id ≤ (mkWinner { participant := pA, prize := prize2 } 5).prize.id :=
  draw_appends_eligible_participant_and_highest_prize samplePrizes
    (initCore [pA, pB]) 0 5 _ _ (by decide)

/-- C3: `drawWinner` is a silent no-op when its preconditions fail: if there
is no unclaimed prize, or no eligible participant, or the state is already
DRAWING, the complete invocation changes nothing and signals nothing. -/
theorem drawWinner_silent_noop_on_failed_precondition
    (PRIZES : List Prize) (c : AppCore) (k : Nat) (now : Int)
    (h : nextPrize PRIZES c.winners = none ∨
      eligible c.participants c.winners = [] ∨
      c.appState = AppState.DRAWING) :
    drawWinnerRun PRIZES c k now = (c, none) :=
  drawWinnerRun_noop h

theorem drawWinner_silent_noop_on_failed_precondition_witness :
    drawWinnerRun samplePrizes
        { initCore [pA, pB] with appState := AppState.DRAWING } 0 5 =
      ({ initCore [pA, pB] with appState := AppState.DRAWING }, none) :=
  drawWinner_silent_noop_on_failed_precondition samplePrizes
    { initCore [pA, pB] with appState := AppState.DRAWING } 0 5
    (Or.inr (Or.inr rfl))

/-- C9: with an empty participant list, no sequence of `drawWinner` calls ever
transitions the application state out of READY. -/
theorem empty_participants_never_leave_ready
    (PRIZES : List Prize) (c : AppCore) (inputs : List (Nat × Int))
    (hp : c.participants = []) (hs : c.appState = AppState.READY) :
    (drawRunSeq PRIZES c inputs).appState = AppState.READY := by
  rw [drawRunSeq_participants_empty PRIZES c inputs hp]
  exact hs

theorem empty_participants_never_leave_ready_witness :
    (drawRunSeq samplePrizes (initCore [])
        [((0 : Nat), (1 : Int)), ((0 : Nat), (2 : Int))]).appState =
      AppState.READY :=
  empty_participants_never_leave_ready samplePrizes (initCore [])
    [((0 : Nat), (1 : Int)), ((0 : Nat), (2 : Int))] rfl rfl

/-- C10: in every execution of `drawWinner` that reaches the
participant-selection step (all guards passed, eligible non-empty), the
randomly chosen index into the eligible list is in bounds, so the selection
yields a defined participant and the pending (hence committed) Winner carries
it. -/
theorem drawWinner_selection_always_defined
    (PRIZES : List Prize) (c : AppCore) (k : Nat) (np : Prize)
    (hk : k < randDenom)
    (hn : nextPrize PRIZES c.winners = some np)
    (h0 : ¬c.participants.length = 0)
    (h1 : ¬c.appState = AppState.DRAWING)
    (h2 : eligible c.participants c.winners ≠ []) :
    selectedIndex k (eligible c.participants c.winners).length <
        (eligible c.participants c.winners).length ∧
      ∃ wp, (eligible c.participants c.winners)[selectedIndex k
            (eligible c.participants c.winners).length]? = some wp ∧
        (drawWinner PRIZES c k).2 = some { participant := wp, prize := np } := by
  have hlen : 0 < (eligible c.participants c.winners).length :=
    List.length_pos.mpr h2
  have hidx := selectedIndex_lt hk hlen
  have hwp := List.getElem?_eq_getElem hidx
  have h2' : ¬(eligible c.participants c.winners).length = 0 := by omega
  refine ⟨hidx, _, hwp, ?_⟩
  simp only [drawWinner, hn, if_neg h0, if_neg h1, if_neg h2', hwp]

theorem insertByIdDesc_ne_nil (p : Prize) (l : List Prize) :
    insertByIdDesc p l ≠ [] := by
  cases l with
  | nil => simp [insertByIdDesc]
  | cons q t =>
    unfold insertByIdDesc
    split <;> simp

theorem sortByIdDesc_eq_nil_iff {l : List Prize} :
    sortByIdDesc l = [] ↔ l = [] := by
  cases l with
  | nil => simp [sortByIdDesc]
  | cons p t =>
    simp only [sortByIdDesc]
    exact ⟨fun h => absurd h (insertByIdDesc_ne_nil p _), fun h => by simp at h⟩

/-- The length bound of the spec's data-model invariant follows from the
other two clauses. -/
theorem winnersInv_length_le {PRIZES : List Prize} {ws : List Winner}
    (hinv : WinnersInv PRIZES ws) : ws.length ≤ PRIZES.length := by
  obtain ⟨-, hnd, hmem⟩ := hinv
  have hsub : (ws.map fun w => w.prize.id).toFinset ⊆
      (PRIZES.map Prize.id).toFinset := by
    intro i hi
    rw [List.mem_toFinset] at hi ⊢
    obtain ⟨w, hw, rfl⟩ := List.mem_map.mp hi
    exact List.mem_map.mpr ⟨w.prize, hmem w hw, rfl⟩
  calc ws.length = (ws.map fun w => w.prize.id).length := (List.length_map _ _).symm
    _ = (ws.map fun w => w.prize.id).toFinset.card :=
        (List.toFinset_card_of_nodup hnd).symm
    _ ≤ (PRIZES.map Prize.id).toFinset.card := Finset.card_le_card hsub
    _ ≤ (PRIZES.map Prize.id).length := List.toFinset_card_le _
    _ = PRIZES.length := List.length_map _ _

/-- Under the invariant (and uniqueness of configured prize ids, §3 of the
spec), "no unclaimed prize remains" is equivalent to the winner count having
reached the prize count. -/
theorem remainingPrizes_eq_nil_iff {PRIZES : List Prize} {ws : List Winner}
    (hP : (PRIZES.map Prize.id).Nodup) (hinv : WinnersInv PRIZES ws) :
    remainingPrizes PRIZES ws = [] ↔ PRIZES.length ≤ ws.length := by
  obtain ⟨-, hnd, hmem⟩ := hinv
  have hsub : (ws.map fun w => w.prize.id).toFinset ⊆
      (PRIZES.map Prize.id).toFinset := by
    intro i hi
    rw [List.mem_toFinset] at hi ⊢
    obtain ⟨w, hw, rfl⟩ := List.mem_map.mp hi
    exact List.mem_map.mpr ⟨w.prize, hmem w hw, rfl⟩
  have hcardw : (ws.map fun w => w.prize.id).toFinset.card = ws.length := by
    rw [List.toFinset_card_of_nodup hnd, List.length_map]
  have hcardP : (PRIZES.map Prize.id).toFinset.card = PRIZES.length := by
    rw [List.toFinset_card_of_nodup hP, List.length_map]
  unfold remainingPrizes
  rw [sortByIdDesc_eq_nil_iff, List.filter_eq_nil_iff]
  constructor
  · intro h
    have hAsubB : (PRIZES.map Prize.id).toFinset ⊆
        (ws.map fun w => w.prize.id).toFinset := by
      intro i hi
      rw [List.mem_toFinset] at hi ⊢
      obtain ⟨q, hq, rfl⟩ := List.mem_map.mp hi
      have := h q hq
      simp only [Bool.not_eq_true', Bool.not_eq_false] at this
      obtain ⟨i', hi', hbeq⟩ := List.contains_iff_exists_mem_beq.mp this
      rw [beq_iff_eq] at hbeq
      exact hbeq ▸ hi'
    calc PRIZES.length = (PRIZES.map Prize.id).toFinset.card := hcardP.symm
      _ ≤ (ws.map fun w => w.prize.id).toFinset.card := Finset.card_le_card hAsubB
      _ = ws.length := hcardw
  · intro hlen q hq
    have heq : (ws.map fun w => w.prize.id).toFinset =
        (PRIZES.map Prize.id).toFinset :=
      Finset.eq_of_subset_of_card_le hsub (by omega)
    have : q.id ∈ (ws.map fun w => w.prize.id).toFinset := by
      rw [heq, List.mem_toFinset]
      exact List.mem_map.mpr ⟨q, hq, rfl⟩
    rw [List.mem_toFinset] at this
    simp only [Bool.not_eq_true', Bool.not_eq_false]
    unfold wonPrizeIds
    exact List.contains_iff_exists_mem_beq.mpr ⟨q.id, this, beq_self_eq_true _⟩

/-- The commit of a successful draw preserves the data-model invariant. -/
theorem winnersInv_drawCommit {PRIZES : List Prize} {c : AppCore} {k : Nat}
    (now : Int) {c1 : AppCore} {p : PendingDraw}
    (h : drawWinner PRIZES c k = (c1, some p))
    (hinv : WinnersInv PRIZES c.winners) :
    WinnersInv PRIZES ((drawCommit p now c1).1.winners) ∧
      (drawCommit p now c1).1.winners = c.winners ++ [mkWinner p now] := by
  obtain ⟨hn, hel, hc1⟩ := drawWinner_eq_some h
  obtain ⟨hpmem, hpfree, -⟩ := nextPrize_spec hn
  obtain ⟨-, hwfree⟩ := mem_eligible.mp hel
  obtain ⟨hnd1, hnd2, hmem⟩ := hinv
  subst hc1
  refine ⟨⟨?_, ?_, ?_⟩, rfl⟩
  · simp only [drawCommit, mkWinner, List.map_append, List.map_cons,
      List.map_nil]
    rw [List.nodup_append]
    refine ⟨hnd1, List.nodup_singleton _, ?_⟩
    intro a ha hb
    simp only [List.mem_singleton] at hb
    subst hb
    obtain ⟨w, hw, heq⟩ := List.mem_map.mp ha
    exact hwfree w hw heq
  · simp only [drawCommit, mkWinner, List.map_append, List.map_cons,
      List.map_nil]
    rw [List.nodup_append]
    refine ⟨hnd2, List.nodup_singleton _, ?_⟩
    intro a ha hb
    simp only [List.mem_singleton] at hb
    subst hb
    obtain ⟨w, hw, heq⟩ := List.mem_map.mp ha
    exact hpfree w hw heq
  · intro w hw
    simp only [drawCommit, List.mem_append, List.mem_singleton] at hw
    rcases hw with hw | rfl
    · exact hmem w hw
    · exact hpmem

/-- C4: for every draw that passes its guards, after the fixed presentation
delay the new Winner record is appended, a celebration side effect is
signalled with the drawn prize's big-winner flag, and the state returns to
READY; the source defers FINISHED to the closing of the winner modal, after
which the state is FINISHED if no unclaimed prizes remain and READY
otherwise. -/
theorem draw_commit_appends_signals_and_transitions
    (PRIZES : List Prize) (c : AppCore) (k : Nat) (now : Int)
    (c1 : AppCore) (p : PendingDraw)
    (hP : (PRIZES.map Prize.id).Nodup)
    (hinv : WinnersInv PRIZES c.winners)
    (h : drawWinner PRIZES c k = (c1, some p)) :
    (drawCommit p now c1).1.winners = c.winners ++ [mkWinner p now] ∧
      (drawCommit p now c1).2 = p.prize.isBigWinner ∧
      (drawCommit p now c1).1.appState = AppState.READY ∧
      (drawCommit p now c1).1.showWinnerModal = true ∧
      (winnerModalOnClose PRIZES (drawCommit p now c1).1).appState =
        (if remainingPrizes PRIZES (drawCommit p now c1).1.winners = []
          then AppState.FINISHED else AppState.READY) := by
  obtain ⟨hinv', happ⟩ := winnersInv_drawCommit now h hinv
  refine ⟨happ, rfl, rfl, rfl, ?_⟩
  have hiff := remainingPrizes_eq_nil_iff hP hinv'
  by_cases hrem : remainingPrizes PRIZES (drawCommit p now c1).1.winners = []
  · rw [if_pos hrem]
    unfold winnerModalOnClose
    rw [if_pos (hiff.mp hrem)]
  · rw [if_neg hrem]
    unfold winnerModalOnClose
    rw [if_neg (fun hc => hrem (hiff.mpr hc))]
    obtain ⟨-, -, hc1⟩ := drawWinner_eq_some h
    rfl

theorem draw_commit_appends_signals_and_transitions_witness :
    (drawCommit { participant := pA, prize := prize2 } 7
        { initCore [pA, pB] with appState := AppState.DRAWING,
                                 currentDrawnName := some pA.name }).1.winners =
      (initCore [pA, pB]).winners ++
        [mkWinner { participant := pA, prize := prize2 } 7] ∧
      (drawCommit { participant := pA, prize := prize2 } 7
        { initCore [pA, pB] with appState := AppState.DRAWING,
                                 currentDrawnName := some pA.name }).2 =
        prize2.isBigWinner ∧
      (drawCommit { participant := pA, prize := prize2 } 7
        { initCore [pA, pB] with appState := AppState.DRAWING,
                                 currentDrawnName := some pA.name }).1.appState =
        AppState.READY ∧
      (drawCommit { participant := pA, prize := prize2 } 7
        { initCore [pA, pB] with appState := AppState.DRAWING,
                                 currentDrawnName := some pA.name }).1.showWinnerModal =
        true ∧
      (winnerModalOnClose samplePrizes
          (drawCommit { participant := pA, prize := prize2 } 7
            { initCore [pA, pB] with appState := AppState.DRAWING,
                                     currentDrawnName := some pA.name }).1).appState =
        (if remainingPrizes samplePrizes
            (drawCommit { participant := pA, prize := prize2 } 7
              { initCore [pA, pB] with appState := AppState.DRAWING,
                                       currentDrawnName := some pA.name }).1.winners = []
          then AppState.FINISHED else AppState.READY) :=
  draw_commit_appends_signals_and_transitions samplePrizes (initCore [pA, pB])
    0 7 _ _ (by decide) (by decide) (by decide)

theorem drawWinner_selection_always_defined_witness :
    selectedIndex 0 (eligible (initCore [pA, pB]).participants
        (initCore [pA, pB]).winners).length <
      (eligible (initCore [pA, pB]).participants
        (initCore [pA, pB]).winners).length ∧
    ∃ wp, (eligible (initCore [pA, pB]).participants
          (initCore [pA, pB]).winners)[selectedIndex 0
            (eligible (initCore [pA, pB]).participants
              (initCore [pA, pB]).winners).length]? = some wp ∧
      (drawWinner samplePrizes (initCore [pA, pB]) 0).2 =
        some { participant := wp, prize := prize2 } :=
  drawWinner_selection_always_defined samplePrizes (initCore [pA, pB]) 0
    prize2 (by unfold randDenom; positivity) (by decide) (by decide)
    (by decide) (by decide)

/-! ## Round-trip lemmas: numbers -/

theorem charDigit_digitChar : ∀ d < 10, charDigit (digitChar d) = some d := by
  decide

theorem isDigitChar_digitChar : ∀ d < 10, isDigitChar (digitChar d) = true := by
  decide

theorem natDigits_spec (n : Nat) :
    (∀ c ∈ natDigits n, isDigitChar c = true) ∧ natDigits n ≠ [] ∧
      digitsVal ((natDigits n).filterMap charDigit) = n := by
  induction n using Nat.strong_induction_on with
  | _ n ih =>
    rw [natDigits]
    by_cases h : n < 10
    · rw [if_pos h]
      refine ⟨?_, by simp, ?_⟩
      · intro c hc
        simp only [List.mem_singleton] at hc
        subst hc
        exact isDigitChar_digitChar n h
      · simp [charDigit_digitChar n h, digitsVal]
    · rw [if_neg h]
      obtain ⟨ih1, ih2, ih3⟩ := ih (n / 10) (Nat.div_lt_self (by omega) (by omega))
      refine ⟨?_, by simp [ih2], ?_⟩
      · intro c hc
        rcases List.mem_append.mp hc with hc | hc
        · exact ih1 c hc
        · simp only [List.mem_singleton] at hc
          subst hc
          exact isDigitChar_digitChar _ (Nat.mod_lt _ (by omega))
      · rw [List.filterMap_append]
        simp only [List.filterMap_cons,
          charDigit_digitChar _ (Nat.mod_lt n (by omega)), List.filterMap_nil]
        unfold digitsVal
        rw [List.foldl_append]
        unfold digitsVal at ih3
        rw [ih3]
        simp only [List.foldl_cons, List.foldl_nil]
        omega

theorem takeWhile_dropWhile_append {p : Char → Bool} {a rest : JStr}
    (ha : ∀ c ∈ a, p c = true)
    (hr : ∀ c, rest.head? = some c → p c = false) :
    (a ++ rest).takeWhile p = a ∧ (a ++ rest).dropWhile p = rest := by
  induction a with
  | nil =>
    simp only [List.nil_append]
    cases rest with
    | nil => simp
    | cons r t =>
      have := hr r rfl
      simp [List.takeWhile_cons, List.dropWhile_cons, this]
  | cons c a' iha =>
    have hc := ha c (List.mem_cons_self c a')
    have iha' := iha fun x hx => ha x (List.mem_cons_of_mem c hx)
    simp only [List.cons_append, List.takeWhile_cons, List.dropWhile_cons, hc,
      if_true]
    exact ⟨by rw [iha'.1], iha'.2⟩

/-- A head character blocking `parseNatJ` from over-consuming. -/
def NonDigitStart (s : JStr) : Prop :=
  ∀ c, s.head? = some c → isDigitChar c = false

theorem parseNatJ_roundtrip (n : Nat) (rest : JStr) (h : NonDigitStart rest) :
    parseNatJ (natDigits n ++ rest) = some (n, rest) := by
  obtain ⟨h1, h2, h3⟩ := natDigits_spec n
  obtain ⟨ht, hd⟩ := takeWhile_dropWhile_append h1 h
  unfold parseNatJ
  simp only [ht, hd, if_neg h2, h3]

theorem intToJStr_head_digit (n : Int) :
    ∀ c, (intToJStr n).head? = some c →
      (isDigitChar c = true ∨ c = '-') := by
  intro c hc
  unfold intToJStr at hc
  split at hc
  · simp only [List.head?_cons, Option.some.injEq] at hc
    exact Or.inr hc.symm
  · obtain ⟨h1, h2, -⟩ := natDigits_spec (n.toNat)
    left
    cases hnd : natDigits n.toNat with
    | nil => exact absurd hnd h2
    | cons x t =>
      rw [hnd] at hc
      simp only [List.head?_cons, Option.some.injEq] at hc
      subst hc
      exact h1 x (hnd ▸ List.mem_cons_self x t)

theorem parseIntJ_roundtrip (n : Int) (rest : JStr) (h : NonDigitStart rest) :
    parseIntJ (intToJStr n ++ rest) = some (n, rest) := by
  unfold intToJStr
  by_cases hn : n < 0
  · rw [if_pos hn, List.cons_append]
    simp only [parseIntJ]
    rw [if_pos trivial, parseNatJ_roundtrip _ _ h]
    simp only [Option.map_some', Option.some.injEq, Prod.mk.injEq]
    exact ⟨by omega, trivial⟩
  · rw [if_neg hn]
    obtain ⟨h1, h2, -⟩ := natDigits_spec n.toNat
    cases hnd : natDigits n.toNat with
    | nil => exact absurd hnd h2
    | cons x t =>
      rw [List.cons_append]
      simp only [parseIntJ]
      have hx : isDigitChar x = true := h1 x (hnd ▸ List.mem_cons_self x t)
      have hxne : ¬x = '-' := by
        intro hh
        rw [hh] at hx
        simp [isDigitChar, charDigit] at hx
      rw [if_neg hxne]
      have hpn := parseNatJ_roundtrip n.toNat rest h
      rw [hnd, List.cons_append] at hpn
      rw [hpn]
      simp only [Option.map_some', Option.some.injEq, Prod.mk.injEq]
      exact ⟨by omega, trivial⟩

/-! ## Round-trip lemmas: JSON string literals -/

theorem charHexVal_hexDigitChar : ∀ v < 16, charHexVal (hexDigitChar v) = some v := by
  decide

theorem parseStringBody_roundtrip (s rest : JStr) :
    parseStringBody (s.flatMap quoteChar ++ '"' :: rest) = some (s, rest) := by
  induction s with
  | nil =>
    rw [List.flatMap_nil, List.nil_append, parseStringBody.eq_def]
    simp
  | cons c t ih =>
    rw [List.flatMap_cons, List.append_assoc]
    by_cases h1 : c = '"'
    · have hq : quoteChar c = ['\\', '"'] := by rw [h1]; decide
      rw [hq, List.cons_append, List.singleton_append, parseStringBody.eq_def]
      subst h1
      simp [unescapeChar, ih]
    · by_cases h2 : c = '\\'
      · have hq : quoteChar c = ['\\', '\\'] := by rw [h2]; decide
        rw [hq, List.cons_append, List.singleton_append, parseStringBody.eq_def]
        subst h2
        simp [unescapeChar, ih]
      · by_cases h3 : c = Char.ofNat 8
        · have hq : quoteChar c = ['\\', 'b'] := by rw [h3]; decide
          rw [hq, List.cons_append, List.singleton_append,
            parseStringBody.eq_def]
          subst h3
          simp [unescapeChar, ih]
        · by_cases h4 : c = Char.ofNat 9
          · have hq : quoteChar c = ['\\', 't'] := by rw [h4]; decide
            rw [hq, List.cons_append, List.singleton_append,
              parseStringBody.eq_def]
            subst h4
            simp [unescapeChar, ih]
          · by_cases h5 : c = Char.ofNat 10
            · have hq : quoteChar c = ['\\', 'n'] := by rw [h5]; decide
              rw [hq, List.cons_append, List.singleton_append,
                parseStringBody.eq_def]
              subst h5
              simp [unescapeChar, ih]
            · by_cases h6 : c = Char.ofNat 12
              · have hq : quoteChar c = ['\\', 'f'] := by rw [h6]; decide
                rw [hq, List.cons_append, List.singleton_append,
                  parseStringBody.eq_def]
                subst h6
                simp [unescapeChar, ih]
              · by_cases h7 : c = Char.ofNat 13
                · have hq : quoteChar c = ['\\', 'r'] := by rw [h7]; decide
                  rw [hq, List.cons_append, List.singleton_append,
                    parseStringBody.eq_def]
                  subst h7
                  simp [unescapeChar, ih]
                · by_cases h8 : c.toNat < 32
                  · have hq : quoteChar c = ['\\', 'u', '0', '0',
                        hexDigitChar (c.toNat / 16),
                        hexDigitChar (c.toNat % 16)] := by
                      unfold quoteChar
                      rw [if_neg h1, if_neg h2, if_neg h3, if_neg h4,
                        if_neg h5, if_neg h6, if_neg h7, if_pos h8]
                    have e0 : charHexVal '0' = some 0 := rfl
                    have e3 : charHexVal (hexDigitChar (c.toNat / 16)) =
                        some (c.toNat / 16) :=
                      charHexVal_hexDigitChar _ (by omega)
                    have e4 : charHexVal (hexDigitChar (c.toNat % 16)) =
                        some (c.toNat % 16) :=
                      charHexVal_hexDigitChar _ (by omega)
                    rw [hq]
                    simp only [List.cons_append, List.nil_append]
                    rw [parseStringBody.eq_def]
                    simp [e0, e3, e4, ih]
                    rw [show c.toNat / 16 * 16 + c.toNat % 16 = c.toNat from
                      by omega, Char.ofNat_toNat]
                  · have hq : quoteChar c = [c] := by
                      unfold quoteChar
                      rw [if_neg h1, if_neg h2, if_neg h3, if_neg h4,
                        if_neg h5, if_neg h6, if_neg h7, if_neg h8]
                    rw [hq, List.singleton_append, parseStringBody.eq_def]
                    simp only []
                    rw [if_neg h1, if_neg h2, ih]
                    rfl

theorem parseJsonString_roundtrip (s rest : JStr) :
    parseJsonString (quoteJStr s ++ rest) = some (s, rest) := by
  unfold quoteJStr parseJsonString
  simp only [List.cons_append, List.append_assoc, List.singleton_append,
    List.nil_append]
  rw [if_pos trivial]
  exact parseStringBody_roundtrip s rest

/-! ## Round-trip lemmas: the record grammar -/

theorem expects_roundtrip (lit rest : JStr) : expects lit (lit ++ rest) = some rest := by
  unfold expects
  rw [if_pos, List.drop_left]
  exact List.isPrefixOf_iff_prefix.mpr (List.prefix_append lit rest)

theorem nonDigitStart_cons {c : Char} {t : JStr} (h : isDigitChar c = false) :
    NonDigitStart (c :: t) := by
  intro x hx
  simp only [List.head?_cons, Option.some.injEq] at hx
  rwa [← hx]

theorem parseBoolJ_roundtrip (b : Bool) (rest : JStr) :
    parseBoolJ (stringifyBool b ++ rest) = some (b, rest) := by
  have htrue : "true".toList = ['t', 'r', 'u', 'e'] := rfl
  have hfalse : "false".toList = ['f', 'a', 'l', 's', 'e'] := rfl
  cases b
  · unfold stringifyBool parseBoolJ
    rw [if_neg (by exact Bool.false_ne_true)]
    have hnone : expects "true".toList ("false".toList ++ rest) = none := by
      unfold expects
      rw [htrue, hfalse]
      simp [List.isPrefixOf]
    rw [hnone, expects_roundtrip]
  · unfold stringifyBool parseBoolJ
    rw [if_pos rfl, expects_roundtrip]

theorem parseParticipant_roundtrip (p : Participant) (rest : JStr) :
    parseParticipant (stringifyParticipant p ++ rest) = some (p, rest) := by
  have hs : stringifyParticipant p ++ rest =
      ([lbrace] ++ quoteJStr "id".toList ++ [':']) ++ (quoteJStr p.id ++
        (([','] ++ quoteJStr "name".toList ++ [':']) ++ (quoteJStr p.name ++
          ([rbrace] ++ rest)))) := by
    simp [stringifyParticipant]
  unfold parseParticipant
  rw [hs, expects_roundtrip]
  simp only [Option.bind_eq_bind, Option.pure_def, Option.some_bind]
  rw [parseJsonString_roundtrip]
  simp only [Option.some_bind]
  rw [expects_roundtrip]
  simp only [Option.some_bind]
  rw [parseJsonString_roundtrip]
  simp only [Option.some_bind]
  rw [expects_roundtrip]
  simp only [Option.some_bind]

theorem nonDigitStart_comma_tok (a b : JStr) :
    NonDigitStart (([','] ++ a ++ [':']) ++ b) := by
  intro x hx
  simp only [List.singleton_append, List.cons_append, List.append_assoc,
    List.head?_cons, Option.some.injEq] at hx
  rw [← hx]
  decide

theorem nonDigitStart_rbrace_tok (b : JStr) :
    NonDigitStart ([rbrace] ++ b) := by
  intro x hx
  simp only [List.singleton_append, List.head?_cons, Option.some.injEq] at hx
  rw [← hx]
  decide

theorem parsePrize_roundtrip (z : Prize) (rest : JStr) :
    parsePrize (stringifyPrize z ++ rest) = some (z, rest) := by
  have hs : stringifyPrize z ++ rest =
      ([lbrace] ++ quoteJStr "id".toList ++ [':']) ++ (intToJStr z.id ++
        (([','] ++ quoteJStr "rank".toList ++ [':']) ++ (intToJStr z.rank ++
          (([','] ++ quoteJStr "name".toList ++ [':']) ++ (quoteJStr z.name ++
            (([','] ++ quoteJStr "value".toList ++ [':']) ++
              (quoteJStr z.value ++
              (([','] ++ quoteJStr "icon".toList ++ [':']) ++
                (quoteJStr z.icon ++
                (([','] ++ quoteJStr "isBigWinner".toList ++ [':']) ++
                  (stringifyBool z.isBigWinner ++
                  ([rbrace] ++ rest)))))))))))) := by
    simp [stringifyPrize]
  unfold parsePrize
  rw [hs, expects_roundtrip]
  simp only [Option.bind_eq_bind, Option.pure_def, Option.some_bind]
  rw [parseIntJ_roundtrip z.id _ (nonDigitStart_comma_tok _ _)]
  simp only [Option.some_bind]
  rw [expects_roundtrip]
  simp only [Option.some_bind]
  rw [parseIntJ_roundtrip z.rank _ (nonDigitStart_comma_tok _ _)]
  simp only [Option.some_bind]
  rw [expects_roundtrip]
  simp only [Option.some_bind]
  rw [parseJsonString_roundtrip]
  simp only [Option.some_bind]
  rw [expects_roundtrip]
  simp only [Option.some_bind]
  rw [parseJsonString_roundtrip]
  simp only [Option.some_bind]
  rw [expects_roundtrip]
  simp only [Option.some_bind]
  rw [parseJsonString_roundtrip]
  simp only [Option.some_bind]
  rw [expects_roundtrip]
  simp only [Option.some_bind]
  rw [parseBoolJ_roundtrip]
  simp only [Option.some_bind]
  rw [expects_roundtrip]
  simp only [Option.some_bind]

theorem parseWinner_roundtrip (w : Winner) (rest : JStr) :
    parseWinner (stringifyWinner w ++ rest) = some (w, rest) := by
  cases hm : w.congratsMessage with
  | some m =>
    have hs : stringifyWinner w ++ rest =
        ([lbrace] ++ quoteJStr "participant".toList ++ [':']) ++
          (stringifyParticipant w.participant ++
          (([','] ++ quoteJStr "prize".toList ++ [':']) ++
            (stringifyPrize w.prize ++
            (([','] ++ quoteJStr "drawnAt".toList ++ [':']) ++
              (intToJStr w.drawnAt ++
              (([','] ++ quoteJStr "congratsMessage".toList ++ [':']) ++
                (quoteJStr m ++ ([rbrace] ++ rest)))))))) := by
      simp [stringifyWinner, hm]
    unfold parseWinner
    rw [hs, expects_roundtrip]
    simp only [Option.bind_eq_bind, Option.pure_def, Option.some_bind]
    rw [parseParticipant_roundtrip]
    simp only [Option.some_bind]
    rw [expects_roundtrip]
    simp only [Option.some_bind]
    rw [parsePrize_roundtrip]
    simp only [Option.some_bind]
    rw [expects_roundtrip]
    simp only [Option.some_bind]
    rw [parseIntJ_roundtrip w.drawnAt _ (nonDigitStart_comma_tok _ _)]
    simp only [Option.some_bind]
    rw [expects_roundtrip]
    simp only [Option.some_bind]
    rw [parseJsonString_roundtrip]
    simp only [Option.some_bind]
    rw [expects_roundtrip]
    simp only [Option.some_bind]
    rw [← hm]
  | none =>
    have hs : stringifyWinner w ++ rest =
        ([lbrace] ++ quoteJStr "participant".toList ++ [':']) ++
          (stringifyParticipant w.participant ++
          (([','] ++ quoteJStr "prize".toList ++ [':']) ++
            (stringifyPrize w.prize ++
            (([','] ++ quoteJStr "drawnAt".toList ++ [':']) ++
              (intToJStr w.drawnAt ++ ([rbrace] ++ rest)))))) := by
      simp [stringifyWinner, hm]
    have hnone : expects ([','] ++ quoteJStr "congratsMessage".toList ++
        [':']) ([rbrace] ++ rest) = none := by
      unfold expects
      rw [if_neg]
      simp only [List.singleton_append, List.cons_append, List.append_assoc]
      simp [List.isPrefixOf, rbrace]
    unfold parseWinner
    rw [hs, expects_roundtrip]
    simp only [Option.bind_eq_bind, Option.pure_def, Option.some_bind]
    rw [parseParticipant_roundtrip]
    simp only [Option.some_bind]
    rw [expects_roundtrip]
    simp only [Option.some_bind]
    rw [parsePrize_roundtrip]
    simp only [Option.some_bind]
    rw [expects_roundtrip]
    simp only [Option.some_bind]
    rw [parseIntJ_roundtrip w.drawnAt _ (nonDigitStart_rbrace_tok _)]
    simp only [Option.some_bind]
    rw [hnone, expects_roundtrip]
    simp only [Option.bind_eq_bind, Option.pure_def, Option.some_bind]
    rw [← hm]

theorem parseWinnersTail_roundtrip (t : List Winner) (rest : JStr) :
    ∀ fuel, t.length < fuel →
      parseWinnersTail fuel (stringifyWinnersTail t ++ rest) = some (t, rest) := by
  induction t generalizing rest with
  | nil =>
    intro fuel hfuel
    cases fuel with
    | zero => omega
    | succ f =>
      simp only [stringifyWinnersTail, List.singleton_append]
      simp [parseWinnersTail]
  | cons w t' ih =>
    intro fuel hfuel
    cases fuel with
    | zero => omega
    | succ f =>
      simp only [stringifyWinnersTail, List.cons_append, List.append_assoc]
      simp only [parseWinnersTail]
      rw [if_neg (by decide), if_pos trivial]
      simp only [Option.bind_eq_bind, Option.pure_def, Option.some_bind]
      rw [parseWinner_roundtrip]
      simp only [Option.some_bind]
      rw [ih _ _ (by simpa using Nat.lt_of_succ_lt_succ hfuel)]
      simp only [Option.some_bind]

theorem parseWinnersArr_roundtrip (ws : List Winner) (rest : JStr)
    (fuel : Nat) (h : ws.length ≤ fuel) :
    parseWinnersArr fuel (stringifyWinnersArr ws ++ rest) = some (ws, rest) := by
  cases ws with
  | nil =>
    simp only [stringifyWinnersArr, List.cons_append, List.singleton_append]
    simp [parseWinnersArr]
  | cons w t =>
    simp only [stringifyWinnersArr, List.cons_append, List.append_assoc]
    have hsw : stringifyWinner w ++ (stringifyWinnersTail t ++ rest) =
        lbrace :: ((stringifyWinner w).tail ++ (stringifyWinnersTail t ++ rest)) := by
      rw [stringifyWinner]
      rfl
    rw [hsw]
    simp only [parseWinnersArr]
    rw [if_pos trivial, if_neg (by decide)]
    rw [← hsw]
    simp only [Option.bind_eq_bind, Option.pure_def, Option.some_bind]
    rw [parseWinner_roundtrip]
    simp only [Option.some_bind]
    rw [parseWinnersTail_roundtrip t rest fuel (by simpa using h)]
    simp only [Option.some_bind]

theorem stringifyWinnersTail_length_ge (t : List Winner) :
    t.length ≤ (stringifyWinnersTail t).length := by
  induction t with
  | nil => simp [stringifyWinnersTail]
  | cons w t' ih =>
    simp only [stringifyWinnersTail, List.length_cons, List.length_append]
    omega

theorem parseRecord_roundtrip (ws : List Winner) :
    parseRecord (stringifyRecord ws) = some ws := by
  have hs : stringifyRecord ws =
      ([lbrace] ++ quoteJStr "winners".toList ++ [':']) ++
        (stringifyWinnersArr ws ++ ([rbrace] ++ ([] : JStr))) := by
    simp [stringifyRecord]
  have hlen : ws.length ≤ (stringifyRecord ws).length + 1 := by
    rw [hs]
    simp only [List.length_append]
    cases ws with
    | nil => simp
    | cons w t =>
      have := stringifyWinnersTail_length_ge t
      simp only [stringifyWinnersArr, List.length_cons, List.length_append]
      omega
  unfold parseRecord
  rw [hs] at hlen ⊢
  rw [expects_roundtrip]
  simp only [Option.bind_eq_bind, Option.pure_def, Option.some_bind]
  rw [parseWinnersArr_roundtrip ws _ _ (by
    simp only [List.length_append] at hlen ⊢
    omega)]
  simp only [Option.some_bind]
  rw [expects_roundtrip]
  simp only [Option.some_bind]
  rw [if_pos trivial]

/-! ## Round-trip lemmas: encodeURIComponent / decodeURIComponent -/

theorem charHexVal_hexDigitCharUpper :
    ∀ v < 16, charHexVal (hexDigitCharUpper v) = some v := by
  decide

theorem char_toNat_lt (c : Char) : c.toNat < 1114112 := by
  have h := c.valid
  simp only [UInt32.isValidChar, Nat.isValidChar] at h
  show c.val.toNat < 1114112
  omega

theorem utf8Bytes_lt (c : Char) : ∀ b ∈ utf8Bytes c, b < 256 := by
  have hv := char_toNat_lt c
  unfold utf8Bytes
  intro b hb
  by_cases h1 : c.toNat < 128
  · rw [if_pos h1] at hb
    simp only [List.mem_singleton] at hb
    omega
  · rw [if_neg h1] at hb
    by_cases h2 : c.toNat < 2048
    · rw [if_pos h2] at hb
      simp only [List.mem_cons, List.mem_singleton, List.not_mem_nil,
        or_false] at hb
      rcases hb with rfl | rfl <;> omega
    · rw [if_neg h2] at hb
      by_cases h3 : c.toNat < 65536
      · rw [if_pos h3] at hb
        simp only [List.mem_cons, List.not_mem_nil, or_false] at hb
        rcases hb with rfl | rfl | rfl <;> omega
      · rw [if_neg h3] at hb
        simp only [List.mem_cons, List.not_mem_nil, or_false] at hb
        rcases hb with rfl | rfl | rfl | rfl <;> omega

theorem uriTokens_cons_unreserved {c : Char} (hc : uriUnreserved c = true)
    (t : JStr) : uriTokens (c :: t) = Sum.inr c :: uriTokens t := by
  have hcp : ¬c = '%' := by
    intro h
    rw [h] at hc
    exact absurd hc (by decide)
  rw [uriTokens.eq_def]
  simp only []
  rw [if_neg hcp]

theorem uriTokens_percent_byte (b : Nat) (hb : b < 256) (t : JStr) :
    uriTokens ('%' :: hexDigitCharUpper (b / 16) ::
      hexDigitCharUpper (b % 16) :: t) = Sum.inl b :: uriTokens t := by
  have e1 := charHexVal_hexDigitCharUpper (b / 16) (by omega)
  have e2 := charHexVal_hexDigitCharUpper (b % 16) (by omega)
  rw [uriTokens.eq_def]
  simp only [e1, e2, if_pos trivial]
  rw [show b / 16 * 16 + b % 16 = b from by omega]

theorem uriTokens_bytes (bs : List Nat) (hbs : ∀ b ∈ bs, b < 256) (t : JStr) :
    uriTokens ((bs.flatMap fun b =>
        ['%', hexDigitCharUpper (b / 16), hexDigitCharUpper (b % 16)]) ++ t) =
      bs.map Sum.inl ++ uriTokens t := by
  induction bs with
  | nil => simp
  | cons b bs' ih =>
    rw [List.flatMap_cons, List.append_assoc, List.cons_append,
      List.cons_append, List.cons_append, List.nil_append,
      uriTokens_percent_byte b (hbs b (List.mem_cons_self b bs')) _]
    rw [ih fun x hx => hbs x (List.mem_cons_of_mem b hx)]
    rfl

theorem uriTokens_percentEncodeChar (c : Char) (t : JStr) :
    uriTokens (percentEncodeChar c ++ t) =
      (utf8Bytes c).map Sum.inl ++ uriTokens t := by
  unfold percentEncodeChar
  exact uriTokens_bytes _ (utf8Bytes_lt c) t

theorem decodeTokensAux_inl (bs : List Nat) (acc : List Nat)
    (ts : List (Sum Nat Char)) :
    decodeTokensAux acc (bs.map Sum.inl ++ ts) =
      decodeTokensAux (bs.reverse ++ acc) ts := by
  induction bs generalizing acc with
  | nil => simp
  | cons b bs' ih =>
    rw [List.map_cons, List.cons_append]
    show decodeTokensAux (b :: acc) (bs'.map Sum.inl ++ ts) = _
    rw [ih (b :: acc)]
    simp [List.append_assoc]

theorem utf8Decode_utf8Bytes (c : Char) (bs : List Nat) :
    utf8Decode (utf8Bytes c ++ bs) = c :: utf8Decode bs := by
  have hvalid : Char.ofNat c.toNat = c := Char.ofNat_toNat c
  unfold utf8Bytes
  by_cases h1 : c.toNat < 128
  · rw [if_pos h1, List.singleton_append, utf8Decode]
    rw [if_pos h1, hvalid]
  · rw [if_neg h1]
    by_cases h2 : c.toNat < 2048
    · rw [if_pos h2, List.cons_append, List.singleton_append, utf8Decode]
      rw [if_neg (by omega), if_pos (by omega)]
      simp only [List.headD_cons, List.drop_one, List.tail_cons]
      rw [show (192 + c.toNat / 64 - 192) * 64 + (128 + c.toNat % 64 - 128) =
        c.toNat from by omega, hvalid]
    · rw [if_neg h2]
      by_cases h3 : c.toNat < 65536
      · rw [if_pos h3, List.cons_append, List.cons_append,
          List.singleton_append, utf8Decode]
        rw [if_neg (by omega), if_neg (by omega), if_pos (by omega)]
        simp only [List.headD_cons, List.drop_one, List.tail_cons,
          List.drop_succ_cons, List.drop_zero]
        rw [show ((224 + c.toNat / 4096 - 224) * 64 +
          (128 + c.toNat / 64 % 64 - 128)) * 64 + (128 + c.toNat % 64 - 128) =
          c.toNat from by omega, hvalid]
      · rw [if_neg h3, List.cons_append, List.cons_append, List.cons_append,
          List.singleton_append, utf8Decode]
        rw [if_neg (by omega), if_neg (by omega), if_neg (by omega)]
        simp only [List.headD_cons, List.drop_one, List.tail_cons,
          List.drop_succ_cons, List.drop_zero]
        rw [show (((240 + c.toNat / 262144 - 240) * 64 +
          (128 + c.toNat / 4096 % 64 - 128)) * 64 +
          (128 + c.toNat / 64 % 64 - 128)) * 64 + (128 + c.toNat % 64 - 128) =
          c.toNat from by omega, hvalid]

theorem utf8Decode_concat (u : JStr) :
    utf8Decode (u.flatMap utf8Bytes) = u := by
  induction u with
  | nil =>
    rw [List.flatMap_nil, utf8Decode]
  | cons c t ih =>
    rw [List.flatMap_cons, utf8Decode_utf8Bytes, ih]

theorem decode_encode_aux (s : JStr) : ∀ u : JStr,
    decodeTokensAux (u.flatMap utf8Bytes).reverse
      (uriTokens (encodeURIComponent s)) = u ++ s := by
  induction s with
  | nil =>
    intro u
    show decodeTokensAux (u.flatMap utf8Bytes).reverse (uriTokens []) = u ++ []
    rw [uriTokens.eq_def]
    simp only []
    show utf8Decode (u.flatMap utf8Bytes).reverse.reverse = u ++ []
    rw [List.reverse_reverse, utf8Decode_concat, List.append_nil]
  | cons c t ih =>
    intro u
    show decodeTokensAux (u.flatMap utf8Bytes).reverse
      (uriTokens ((c :: t).flatMap fun x =>
        if uriUnreserved x then [x] else percentEncodeChar x)) = u ++ (c :: t)
    rw [List.flatMap_cons]
    have hfold : (t.flatMap fun x =>
        if uriUnreserved x = true then [x] else percentEncodeChar x) =
        encodeURIComponent t := rfl
    rw [hfold]
    by_cases hc : uriUnreserved c
    · rw [if_pos hc, List.singleton_append, uriTokens_cons_unreserved hc]
      show utf8Decode (u.flatMap utf8Bytes).reverse.reverse ++
        c :: decodeTokensAux [] (uriTokens (encodeURIComponent t)) = _
      have ih0 := ih []
      simp only [List.flatMap_nil, List.reverse_nil, List.nil_append] at ih0
      rw [List.reverse_reverse, utf8Decode_concat, ih0]
    · rw [if_neg hc]
      rw [uriTokens_percentEncodeChar, decodeTokensAux_inl]
      have hacc : (utf8Bytes c).reverse ++ (u.flatMap utf8Bytes).reverse =
          ((u ++ [c]).flatMap utf8Bytes).reverse := by
        rw [List.flatMap_append, List.reverse_append]
        simp
      rw [hacc, ih (u ++ [c])]
      simp

/-- The full `decodeURIComponent ∘ encodeURIComponent` round trip. -/
theorem decode_encode_roundtrip (s : JStr) :
    decodeURIComponent (encodeURIComponent s) = s := by
  have h := decode_encode_aux s []
  simp only [List.flatMap_nil, List.reverse_nil, List.nil_append] at h
  exact h

/-- Every character of an `encodeURIComponent` image is unreserved, a `%`,
or an uppercase hex digit. -/
theorem mem_encodeURIComponent {x : Char} {s : JStr}
    (hx : x ∈ encodeURIComponent s) :
    uriUnreserved x = true ∨ x = '%' ∨ ∃ v < 16, x = hexDigitCharUpper v := by
  unfold encodeURIComponent at hx
  obtain ⟨c, -, hc⟩ := List.mem_flatMap.mp hx
  by_cases hu : uriUnreserved c
  · rw [if_pos hu] at hc
    simp only [List.mem_singleton] at hc
    subst hc
    exact Or.inl hu
  · rw [if_neg hu] at hc
    unfold percentEncodeChar at hc
    obtain ⟨b, hb, hxb⟩ := List.mem_flatMap.mp hc
    have hb256 := utf8Bytes_lt c b hb
    simp only [List.mem_cons, List.not_mem_nil, or_false] at hxb
    rcases hxb with rfl | rfl | rfl
    · exact Or.inr (Or.inl rfl)
    · exact Or.inr (Or.inr ⟨b / 16, by omega, rfl⟩)
    · exact Or.inr (Or.inr ⟨b % 16, by omega, rfl⟩)

theorem encode_not_semicolon {x : Char} {s : JStr}
    (hx : x ∈ encodeURIComponent s) : x ≠ ';' := by
  rcases mem_encodeURIComponent hx with h | h | ⟨v, hv, h⟩
  · intro he
    rw [he] at h
    exact absurd h (by decide)
  · rw [h]
    decide
  · subst h
    exact (by decide : ∀ v < 16, hexDigitCharUpper v ≠ ';') v hv

theorem encode_not_eq_sign {x : Char} {s : JStr}
    (hx : x ∈ encodeURIComponent s) : x ≠ '=' := by
  rcases mem_encodeURIComponent hx with h | h | ⟨v, hv, h⟩
  · intro he
    rw [he] at h
    exact absurd h (by decide)
  · rw [h]
    decide
  · subst h
    exact (by decide : ∀ v < 16, hexDigitCharUpper v ≠ '=') v hv

/-! ## Cookie-jar lemmas -/

theorem jsSplit_no_sep {c0 : Char} {sepT : JStr} {s : JStr} (hns : c0 ∉ s) :
    jsSplit (c0 :: sepT) s = [s] := by
  induction s with
  | nil =>
    rw [jsSplit.eq_def, dif_neg (List.cons_ne_nil c0 sepT)]
  | cons c rest ih =>
    have hc : ¬c0 = c := fun h => hns (h ▸ List.mem_cons_self c rest)
    have hpre : ¬(c0 :: sepT).isPrefixOf (c :: rest) = true := by
      simp [List.isPrefixOf, hc]
    rw [jsSplit.eq_def, dif_neg (List.cons_ne_nil c0 sepT)]
    simp only []
    rw [if_neg hpre, ih fun hm => hns (List.mem_cons_of_mem c hm)]
    rfl

theorem jsSplit_first {c0 : Char} {sepT : JStr} (b : JStr) :
    ∀ (a : JStr), c0 ∉ a →
      jsSplit (c0 :: sepT) (a ++ (c0 :: sepT) ++ b) =
        a :: jsSplit (c0 :: sepT) b := by
  intro a
  induction a with
  | nil =>
    intro _
    rw [List.nil_append, jsSplit.eq_def, dif_neg (List.cons_ne_nil c0 sepT)]
    simp only [List.cons_append]
    rw [if_pos ( List.isPrefixOf_iff_prefix.mpr ⟨b, by simp⟩)]
    have hdrop : List.drop (c0 :: sepT).length (c0 :: (sepT ++ b)) = b := by
      show List.drop (c0 :: sepT).length ((c0 :: sepT) ++ b) = b
      exact List.drop_left _ _
    rw [hdrop]
  | cons c a' ih =>
    intro hns
    have hc : ¬c0 = c := fun h => hns (h ▸ List.mem_cons_self c a')
    have hpre : ¬(c0 :: sepT).isPrefixOf
        (c :: (a' ++ (c0 :: sepT) ++ b)) = true := by
      simp only [List.isPrefixOf, Bool.and_eq_true, beq_iff_eq]
      intro hcontra
      exact hc hcontra.1
    rw [List.cons_append, List.cons_append, jsSplit.eq_def,
      dif_neg (List.cons_ne_nil c0 sepT)]
    simp only []
    rw [if_neg hpre]
    rw [ih fun hm => hns (List.mem_cons_of_mem c hm)]
    rfl

theorem getCookie_nil (name : JStr) (hname : name ≠ []) :
    getCookie [] name = [] := by
  have hinter0 : List.intercalate ("; ".toList) ([] : List JStr) = [] := by
    simp [List.intercalate]
  unfold getCookie documentCookie
  rw [List.map_nil, hinter0,
    jsSplit.eq_def, dif_neg (by decide : ¬("; ".toList = ([] : JStr)))]
  simp only [List.foldl_cons, List.foldl_nil]
  rw [jsSplit.eq_def, dif_neg (List.cons_ne_nil '=' [])]
  simp only [List.head?_cons]
  rw [if_neg]
  intro hcc
  exact hname (Option.some.inj hcc).symm

theorem getCookie_single (k v : JStr) (hk1 : ';' ∉ k) (hk2 : '=' ∉ k)
    (hv1 : ';' ∉ v) (hv2 : '=' ∉ v) :
    getCookie [(k, v)] k = decodeURIComponent v := by
  have hns : ';' ∉ k ++ '=' :: v := by
    intro hm
    rcases List.mem_append.mp hm with hm | hm
    · exact hk1 hm
    · rcases List.mem_cons.mp hm with hm | hm
      · exact absurd hm (by decide)
      · exact hv1 hm
  have hsepeq : "; ".toList = ';' :: (' ' :: []) := rfl
  have hinter : List.intercalate ("; ".toList) [k ++ '=' :: v] =
      k ++ '=' :: v := by
    simp [List.intercalate]
  have hparts : jsSplit ['='] (k ++ '=' :: v) = [k, v] := by
    have h1 : k ++ '=' :: v = k ++ ('=' :: []) ++ v := by simp
    rw [h1, jsSplit_first v k hk2, jsSplit_no_sep hv2]
  unfold getCookie documentCookie
  rw [List.map_cons, List.map_nil, hinter, hsepeq, jsSplit_no_sep hns,
    List.foldl_cons, List.foldl_nil]
  simp only [hparts, List.head?_cons]
  rw [if_pos trivial]
  rfl

/-! ## System-level persistence lemmas -/

theorem not_semicolon_encode (s : JStr) : ';' ∉ encodeURIComponent s :=
  fun h => encode_not_semicolon h rfl

theorem not_eq_sign_encode (s : JStr) : '=' ∉ encodeURIComponent s :=
  fun h => encode_not_eq_sign h rfl

theorem getCookie_jar_record (ws : List Winner) :
    getCookie [(APP_STORAGE_KEY, encodeURIComponent (stringifyRecord ws))]
      APP_STORAGE_KEY = stringifyRecord ws := by
  rw [getCookie_single _ _ (by decide) (by decide) (not_semicolon_encode _)
    (not_eq_sign_encode _), decode_encode_roundtrip]

theorem stringifyRecord_ne_nil (ws : List Winner) : stringifyRecord ws ≠ [] := by
  unfold stringifyRecord
  exact List.cons_ne_nil _ _

theorem loadWinners_nil : loadWinners [] = [] := by
  unfold loadWinners
  rw [getCookie_nil _ (by decide), if_pos rfl]

theorem loadEffect_empty (PRIZES : List Prize) (c : AppCore) :
    loadEffect PRIZES [] c = c := by
  unfold loadEffect
  rw [getCookie_nil _ (by decide), if_pos rfl]

theorem loadEffect_record (PRIZES : List Prize) (c : AppCore)
    (ws : List Winner) :
    loadEffect PRIZES
        [(APP_STORAGE_KEY, encodeURIComponent (stringifyRecord ws))] c =
      { c with winners := ws
               appState := if PRIZES.length ≤ ws.length then
                  AppState.FINISHED else c.appState } := by
  unfold loadEffect
  rw [getCookie_jar_record, if_neg (stringifyRecord_ne_nil ws),
    parseRecord_roundtrip]

theorem jarErase_of_jarInv {PRIZES : List Prize} {jar : CookieJar}
    (h : JarInv PRIZES jar) : jarErase jar APP_STORAGE_KEY = [] := by
  rcases h with rfl | ⟨ws, -, -, rfl⟩
  · rfl
  · simp [jarErase]

theorem loadWinners_saveWinners {PRIZES : List Prize} {jar : CookieJar}
    {ws : List Winner} (hj : JarInv PRIZES jar) (hne : ws ≠ []) :
    loadWinners (saveWinners jar ws) = ws := by
  unfold saveWinners
  rw [if_pos (by cases ws with
    | nil => exact absurd rfl hne
    | cons w t => simp)]
  unfold setCookie
  rw [if_neg (by norm_num : ¬(7 : Int) < 0), jarErase_of_jarInv hj,
    List.nil_append]
  unfold loadWinners
  rw [getCookie_jar_record, if_neg (stringifyRecord_ne_nil ws),
    parseRecord_roundtrip]

theorem winnersInv_nil (PRIZES : List Prize) : WinnersInv PRIZES [] := by
  refine ⟨List.nodup_nil, List.nodup_nil, ?_⟩
  intro w hw
  cases hw

theorem saveWinners_jarInv {PRIZES : List Prize} {jar : CookieJar}
    {ws : List Winner} (hj : JarInv PRIZES jar) (hw : WinnersInv PRIZES ws) :
    JarInv PRIZES (saveWinners jar ws) := by
  unfold saveWinners
  cases ws with
  | nil => rw [if_neg (by simp)]; exact hj
  | cons w t =>
    rw [if_pos (by simp)]
    unfold setCookie
    rw [if_neg (by norm_num : ¬(7 : Int) < 0), jarErase_of_jarInv hj,
      List.nil_append]
    exact Or.inr ⟨w :: t, hw, List.cons_ne_nil w t, rfl⟩

theorem saveEffect_sysInv {PRIZES : List Prize} {s : Sys}
    (h : SysInv PRIZES s) : SysInv PRIZES (saveEffect s) := by
  obtain ⟨hw, hj⟩ := h
  exact ⟨hw, saveWinners_jarInv hj hw⟩

theorem drawWinner_none_fst {PRIZES : List Prize} {c : AppCore} {k : Nat}
    {c1 : AppCore} (h : drawWinner PRIZES c k = (c1, none)) : c1 = c := by
  unfold drawWinner at h
  split at h
  · injection h with h1 h2; exact h1.symm
  next np hn =>
    split at h
    · injection h with h1 h2; exact h1.symm
    · split at h
      · injection h with h1 h2; exact h1.symm
      · dsimp only at h
        split at h
        · injection h with h1 h2; exact h1.symm
        · split at h
          · injection h with h1 h2; exact h1.symm
          · injection h with h1 h2; cases h2

theorem drawSys_none {PRIZES : List Prize} {s : Sys} {k : Nat} {now : Int}
    {c1 : AppCore} (hdw : drawWinner PRIZES s.core k = (c1, none)) :
    drawSys PRIZES s k now = ({ s with core := c1 }, none) := by
  unfold drawSys drawWinnerRun
  simp only [hdw]

theorem drawSys_some {PRIZES : List Prize} {s : Sys} {k : Nat} {now : Int}
    {c1 : AppCore} {p : PendingDraw}
    (hdw : drawWinner PRIZES s.core k = (c1, some p)) :
    drawSys PRIZES s k now =
      (saveEffect { s with core := (drawCommit p now c1).1 },
        some (drawCommit p now c1).2) := by
  unfold drawSys drawWinnerRun
  simp only [hdw]

theorem closeModal_winners (PRIZES : List Prize) (c : AppCore) :
    (winnerModalOnClose PRIZES c).winners = c.winners := by
  unfold winnerModalOnClose
  dsimp only
  split <;> rfl

theorem sysInv_drawSys (PRIZES : List Prize) (s : Sys) (k : Nat) (now : Int)
    (h : SysInv PRIZES s) : SysInv PRIZES (drawSys PRIZES s k now).1 := by
  obtain ⟨hw, hj⟩ := h
  cases hdw : drawWinner PRIZES s.core k with
  | mk c1 po =>
    cases po with
    | none =>
      rw [drawSys_none hdw]
      have := drawWinner_none_fst hdw
      subst this
      exact ⟨hw, hj⟩
    | some p =>
      rw [drawSys_some hdw]
      have hinv' := (winnersInv_drawCommit now hdw hw).1
      exact saveEffect_sysInv ⟨hinv', hj⟩

theorem sysInv_reset (PRIZES : List Prize) (s : Sys) (confirmed : Bool)
    (h : SysInv PRIZES s) : SysInv PRIZES (resetSys confirmed s) := by
  obtain ⟨hw, hj⟩ := h
  unfold resetSys handleReset
  cases confirmed with
  | false =>
    rw [if_neg (by simp)]
    exact saveEffect_sysInv ⟨hw, hj⟩
  | true =>
    rw [if_pos rfl]
    apply saveEffect_sysInv
    refine ⟨winnersInv_nil PRIZES, ?_⟩
    left
    unfold setCookie
    rw [if_pos (by norm_num : (-1 : Int) < 0)]
    exact jarErase_of_jarInv hj

theorem sysInv_reload (PRIZES : List Prize) (parts : List Participant)
    (s : Sys) (h : SysInv PRIZES s) :
    SysInv PRIZES (reloadSys PRIZES parts s) := by
  obtain ⟨hw, hj⟩ := h
  unfold reloadSys
  apply saveEffect_sysInv
  rcases hj with hnil | ⟨ws, hwsInv, hne, hjar⟩
  · rw [hnil, loadEffect_empty]
    exact ⟨winnersInv_nil PRIZES, Or.inl rfl⟩
  · rw [hjar, loadEffect_record]
    exact ⟨hwsInv, Or.inr ⟨ws, hwsInv, hne, rfl⟩⟩

theorem sysInv_step {PRIZES : List Prize} {s s' : Sys}
    (hstep : Step PRIZES s s') (h : SysInv PRIZES s) : SysInv PRIZES s' := by
  cases hstep with
  | draw k now => exact sysInv_drawSys PRIZES s k now h
  | close =>
    obtain ⟨hw, hj⟩ := h
    refine ⟨?_, hj⟩
    show WinnersInv PRIZES (winnerModalOnClose PRIZES s.core).winners
    rw [closeModal_winners]
    exact hw
  | reset confirmed => exact sysInv_reset PRIZES s confirmed h
  | reload => exact sysInv_reload PRIZES s.core.participants s h

theorem sysInv_reach {PRIZES : List Prize} {parts : List Participant}
    {s : Sys} (h : Reach PRIZES parts s) : SysInv PRIZES s := by
  unfold Reach at h
  induction h with
  | refl => exact ⟨winnersInv_nil PRIZES, Or.inl rfl⟩
  | tail hsteps hstep ih => exact sysInv_step hstep ih

/-! ## Claim theorems about persistence and reachability -/

/-- C2: in every reachable state, each Participant appears in at most one
Winner, each Prize appears in at most one Winner (both by id), and the
Winner list length does not exceed the number of configured Prizes; this is
preserved across draws, modal closes, resets, and startup loads. -/
theorem reachable_state_satisfies_data_model_invariant
    (PRIZES : List Prize) (parts : List Participant) (s : Sys)
    (h : Reach PRIZES parts s) :
    (s.core.winners.map fun w => w.participant.id).Nodup ∧
      (s.core.winners.map fun w => w.prize.id).Nodup ∧
      s.core.winners.length ≤ PRIZES.length := by
  obtain ⟨⟨h1, h2, h3⟩, -⟩ := sysInv_reach h
  exact ⟨h1, h2, winnersInv_length_le ⟨h1, h2, h3⟩⟩

theorem reachable_state_satisfies_data_model_invariant_witness :
    ((sampleSys0.core.winners.map fun w => w.participant.id).Nodup ∧
      (sampleSys0.core.winners.map fun w => w.prize.id).Nodup ∧
      sampleSys0.core.winners.length ≤ samplePrizes.length) :=
  reachable_state_satisfies_data_model_invariant samplePrizes [pA, pB]
    sampleSys0 Relation.ReflTransGen.refl

/-- C5: a confirmed reset yields an empty Winner list, the READY state, and
a cleared persisted record (the app's cookie is gone, so reading it yields
the empty string); stated for any state whose jar the app could have
produced. -/
theorem reset_clears_winners_state_and_record
    (PRIZES : List Prize) (s : Sys) (hj : JarInv PRIZES s.jar) :
    (resetSys true s).core.winners = [] ∧
      (resetSys true s).core.appState = AppState.READY ∧
      getCookie (resetSys true s).jar APP_STORAGE_KEY = [] := by
  unfold resetSys handleReset
  rw [if_pos rfl]
  refine ⟨rfl, rfl, ?_⟩
  show getCookie (saveWinners (setCookie s.jar APP_STORAGE_KEY [] (-1)) [])
    APP_STORAGE_KEY = []
  unfold saveWinners
  rw [if_neg (by simp)]
  unfold setCookie
  rw [if_pos (by norm_num : (-1 : Int) < 0), jarErase_of_jarInv hj]
  exact getCookie_nil _ (by decide)

theorem reset_clears_winners_state_and_record_witness :
    (resetSys true sampleSys1).core.winners = [] ∧
      (resetSys true sampleSys1).core.appState = AppState.READY ∧
      getCookie (resetSys true sampleSys1).jar APP_STORAGE_KEY = [] :=
  reset_clears_winners_state_and_record samplePrizes sampleSys1
    (Or.inr ⟨[sampleWinner], by decide, by decide, rfl⟩)

/-- C6 as stated is false: the save effect skips empty winner lists, so
saving `[]` over a jar that still holds an earlier one-winner record and
loading back yields that old record, not `[]`. -/
theorem save_then_load_fails_on_empty_list :
    loadWinners (saveWinners jarWithOneWinner []) = [sampleWinner] ∧
      [sampleWinner] ≠ ([] : List Winner) := by
  constructor
  · show loadWinners jarWithOneWinner = [sampleWinner]
    unfold jarWithOneWinner loadWinners
    rw [getCookie_jar_record, if_neg (stringifyRecord_ne_nil _),
      parseRecord_roundtrip]
  · decide

/-- C6 (amended): for every NON-EMPTY Winner list and every jar the app can
produce, saving the list (serializing to the cookie record under the fixed
storage key) and then loading it back reproduces a Winner list equal
field-by-field to the original. -/
theorem save_then_load_roundtrip
    (PRIZES : List Prize) (jar : CookieJar) (ws : List Winner)
    (hj : JarInv PRIZES jar) (hne : ws ≠ []) :
    loadWinners (saveWinners jar ws) = ws :=
  loadWinners_saveWinners hj hne

theorem save_then_load_roundtrip_witness :
    loadWinners (saveWinners [] [sampleWinner]) = [sampleWinner] :=
  save_then_load_roundtrip samplePrizes [] [sampleWinner] (Or.inl rfl)
    (by decide)

/-- C7: a missing or unparsable persisted record leaves the startup state
untouched (empty history); the parse failure is caught, never fatal. -/
theorem load_missing_or_unparsable_is_noop
    (PRIZES : List Prize) (jar : CookieJar) (c : AppCore)
    (h : getCookie jar APP_STORAGE_KEY = [] ∨
      parseRecord (getCookie jar APP_STORAGE_KEY) = none) :
    loadEffect PRIZES jar c = c := by
  unfold loadEffect
  rcases h with h | h
  · rw [h, if_pos rfl]
  · by_cases h0 : getCookie jar APP_STORAGE_KEY = []
    · rw [h0, if_pos rfl]
    · rw [if_neg h0, h]

theorem load_missing_or_unparsable_is_noop_witness :
    loadEffect samplePrizes jarBad (initCore [pA]) = initCore [pA] :=
  load_missing_or_unparsable_is_noop samplePrizes jarBad (initCore [pA])
    (Or.inr (by
      have hg : getCookie jarBad APP_STORAGE_KEY = [lbrace] := by
        unfold jarBad
        rw [getCookie_single _ _ (by decide) (by decide)
          (not_semicolon_encode _) (not_eq_sign_encode _),
          decode_encode_roundtrip]
      rw [hg]
      decide))

/-- C8: after every mutation of the Winner list — an append by a completed
draw, or the clearing done by reset — the persisted record reflects the new
list: loading the jar back yields exactly the current winners. -/
theorem persisted_record_reflects_mutations
    (PRIZES : List Prize) (s : Sys) (k : Nat) (now : Int)
    (hinv : SysInv PRIZES s) :
    (∀ s' flag, drawSys PRIZES s k now = (s', some flag) →
      loadWinners s'.jar = s'.core.winners) ∧
      loadWinners (resetSys true s).jar = (resetSys true s).core.winners := by
  obtain ⟨hw, hj⟩ := hinv
  constructor
  · intro s' flag hdraw
    cases hdw : drawWinner PRIZES s.core k with
    | mk c1 po =>
      cases po with
      | none =>
        rw [drawSys_none hdw] at hdraw
        cases hdraw
      | some p =>
        rw [drawSys_some hdw] at hdraw
        injection hdraw with h1 h2
        subst h1
        show loadWinners (saveEffect _).jar = _
        unfold saveEffect
        obtain ⟨-, happ⟩ := winnersInv_drawCommit now hdw hw
        have hne : ({ s with core := (drawCommit p now c1).1 } :
            Sys).core.winners ≠ [] := by
          show (drawCommit p now c1).1.winners ≠ []
          rw [happ]
          simp
        exact loadWinners_saveWinners hj hne
  · unfold resetSys handleReset
    rw [if_pos rfl]
    show loadWinners (saveWinners (setCookie s.jar APP_STORAGE_KEY [] (-1))
      []) = []
    unfold saveWinners
    rw [if_neg (by simp)]
    unfold setCookie
    rw [if_pos (by norm_num : (-1 : Int) < 0), jarErase_of_jarInv hj]
    exact loadWinners_nil

theorem persisted_record_reflects_mutations_witness :
    (∀ s' flag, drawSys samplePrizes sampleSys0 0 3 = (s', some flag) →
      loadWinners s'.jar = s'.core.winners) ∧
      loadWinners (resetSys true sampleSys0).jar =
        (resetSys true sampleSys0).core.winners :=
  persisted_record_reflects_mutations samplePrizes sampleSys0 0 3
    ⟨by decide, Or.inl rfl⟩

end ZuvLottery
